import Mathlib

/-!
gotext: PO catalog parser, translation entries and plural expressions.

A shallow embedding of `line_reader.go`, `translation.go`, `po.go` and
`plurals/expression.go`.

Go strings are byte sequences, so a string is a list of bytes here; the
standard-library functions the sources call (`strings`, `strconv`, `regexp`,
`unicode/utf8`) are modelled at byte level, following their Go definitions.
Go `int` is taken to be 64 bits wide.  A run of the code either returns, or
panics, or does not end; loops are written with a fuel counter and yield
`Run.timeout` when the counter runs out.
-/

namespace Gotext

/-! ## Strings and outcomes -/

/-- A Go string: an immutable sequence of bytes. -/
abbrev GoString := List UInt8

/-- The bytes (UTF-8) of a string literal. -/
def bytes (s : String) : GoString := s.toList.flatMap String.utf8EncodeChar

/-- The Go `error` values that occur in the sources. -/
inductive GoError where
  | EOF
  | ErrSyntax
  | ErrRange
  deriving DecidableEq, Repr

/-- The outcome of running a piece of Go code. -/
inductive Run (α : Type) where
  | ok (a : α)
  | panic (msg : String)
  | timeout
  deriving DecidableEq, Repr

/-- A Go map, as an association list with at most one pair per key. -/
abbrev GoMap (κ ν : Type) := List (κ × ν)

/-- Map lookup `m[k]` in its two-result form. -/
def GoMap.get {κ ν : Type} [DecidableEq κ] (m : GoMap κ ν) (k : κ) : Option ν :=
  match m with
  | [] => none
  | (k1, v) :: rest => if k1 = k then some v else GoMap.get rest k

/-- Map assignment `m[k] = v`. -/
def GoMap.set {κ ν : Type} [DecidableEq κ] (m : GoMap κ ν) (k : κ) (v : ν) : GoMap κ ν :=
  match m with
  | [] => [(k, v)]
  | (k1, v1) :: rest => if k1 = k then (k, v) :: rest else (k1, v1) :: GoMap.set rest k v

/-! ## Package `strings` -/

/-- The call `strings.Replace(s, old, "", -1)` for a one-byte `old`. -/
def stringsRemove (s : GoString) (old : UInt8) : GoString :=
  s.filter (fun c => c ≠ old)

/-- The call `strings.Split(s, sep)` for a one-byte separator. -/
def stringsSplit : GoString → UInt8 → List GoString
  | [], _ => [[]]
  | c :: rest, sep =>
    if c = sep then [] :: stringsSplit rest sep
    else match stringsSplit rest sep with
      | p :: ps => (c :: p) :: ps
      | [] => [[c]]

/-- The call `strings.Index(s, sep)` for a one-byte separator; -1 when absent. -/
def stringsIndex : GoString → UInt8 → Int
  | [], _ => -1
  | c :: rest, sep =>
    if c = sep then 0
    else
      let i := stringsIndex rest sep
      if i < 0 then -1 else i + 1

/-- The call `strings.SplitN(s, sep, 2)` for a one-byte separator. -/
def stringsSplitN2 (s : GoString) (sep : UInt8) : List GoString :=
  let m := stringsIndex s sep
  if m < 0 then [s] else [s.take m.toNat, s.drop (m.toNat + 1)]

/-- The test `strings.HasPrefix(s, p)`. -/
def HasPrefix (s p : GoString) : Bool := p.isPrefixOf s

/-- The first result of `strings.CutPrefix(s, p)`. -/
def CutPrefix (s p : GoString) : GoString :=
  if HasPrefix s p then s.drop p.length else s

/-- The slice expression `s[lo:hi]`; `none` when the bounds are out of range. -/
def slice (s : GoString) (lo hi : Int) : Option GoString :=
  if 0 ≤ lo ∧ lo ≤ hi ∧ hi ≤ s.length then some ((s.take hi.toNat).drop lo.toNat) else none

/-- The slice expression `s[lo:]`; `none` when `lo` is out of range. -/
def sliceFrom (s : GoString) (lo : Nat) : Option GoString :=
  if lo ≤ s.length then some (s.drop lo) else none

/-- The white space of `unicode.IsSpace` that is one byte long. -/
def isSpace1 (a : UInt8) : Bool :=
  a = 0x09 ∨ a = 0x0A ∨ a = 0x0B ∨ a = 0x0C ∨ a = 0x0D ∨ a = 0x20

/-- The white space of `unicode.IsSpace` encoded in two bytes: U+0085 and U+00A0. -/
def isSpace2 (a b : UInt8) : Bool :=
  a = 0xC2 ∧ (b = 0x85 ∨ b = 0xA0)

/-- The white space of `unicode.IsSpace` encoded in three bytes: U+1680,
U+2000 to U+200A, U+2028, U+2029, U+202F, U+205F and U+3000. -/
def isSpace3 (a b c : UInt8) : Bool :=
  (a = 0xE1 ∧ b = 0x9A ∧ c = 0x80) ∨
  (a = 0xE2 ∧ b = 0x80 ∧ ((0x80 ≤ c ∧ c ≤ 0x8A) ∨ c = 0xA8 ∨ c = 0xA9 ∨ c = 0xAF)) ∨
  (a = 0xE2 ∧ b = 0x81 ∧ c = 0x9F) ∨
  (a = 0xE3 ∧ b = 0x80 ∧ c = 0x80)

/-- The call `strings.TrimLeftFunc(s, unicode.IsSpace)`: the leading white space runes
are dropped. -/
def trimLeftSpace : GoString → GoString
  | [] => []
  | a :: rest =>
    if isSpace1 a then trimLeftSpace rest
    else match rest with
      | [] => a :: rest
      | b :: rest2 =>
        if isSpace2 a b then trimLeftSpace rest2
        else match rest2 with
          | [] => a :: rest
          | c :: rest3 => if isSpace3 a b c then trimLeftSpace rest3 else a :: rest

/-- The call `strings.TrimRightFunc(s, unicode.IsSpace)`, on the reversed string: the
runes are found from the end, so the bytes of a rune come in reverse order. -/
def trimLeftSpaceRev : GoString → GoString
  | [] => []
  | a :: rest =>
    if isSpace1 a then trimLeftSpaceRev rest
    else match rest with
      | [] => a :: rest
      | b :: rest2 =>
        if isSpace2 b a then trimLeftSpaceRev rest2
        else match rest2 with
          | [] => a :: rest
          | c :: rest3 => if isSpace3 c b a then trimLeftSpaceRev rest3 else a :: rest

/-- The call `strings.TrimSpace(s)`. -/
def TrimSpace (s : GoString) : GoString :=
  (trimLeftSpaceRev (trimLeftSpace s).reverse).reverse

/-! ## Package `unicode/utf8` -/

/-- A continuation byte, 0x80 to 0xBF. -/
def isCont (b : UInt8) : Bool := 0x80 ≤ b ∧ b ≤ 0xBF

/-- The rune named `utf8.RuneError`. -/
def RuneError : Nat := 0xFFFD

/-- The call `utf8.DecodeRuneInString(s)`: the first rune of `s` and its width in bytes;
an invalid or short encoding gives `RuneError` with width 1, the empty string width 0. -/
def DecodeRuneInString : GoString → Nat × Nat
  | [] => (RuneError, 0)
  | [a] => if a < 0x80 then (a.toNat, 1) else (RuneError, 1)
  | [a, b] =>
    if a < 0x80 then (a.toNat, 1)
    else if 0xC2 ≤ a ∧ a ≤ 0xDF ∧ isCont b then ((a.toNat % 32) * 64 + b.toNat % 64, 2)
    else (RuneError, 1)
  | a :: b :: c :: rest =>
    if a < 0x80 then (a.toNat, 1)
    else if 0xC2 ≤ a ∧ a ≤ 0xDF then
      if isCont b then ((a.toNat % 32) * 64 + b.toNat % 64, 2) else (RuneError, 1)
    else if 0xE0 ≤ a ∧ a ≤ 0xEF then
      let lo : UInt8 := if a = 0xE0 then 0xA0 else 0x80
      let hi : UInt8 := if a = 0xED then 0x9F else 0xBF
      if lo ≤ b ∧ b ≤ hi ∧ isCont c then
        ((a.toNat % 16) * 4096 + (b.toNat % 64) * 64 + c.toNat % 64, 3)
      else (RuneError, 1)
    else if 0xF0 ≤ a ∧ a ≤ 0xF4 then
      let lo : UInt8 := if a = 0xF0 then 0x90 else 0x80
      let hi : UInt8 := if a = 0xF4 then 0x8F else 0xBF
      match rest with
      | d :: _ =>
        if lo ≤ b ∧ b ≤ hi ∧ isCont c ∧ isCont d then
          ((a.toNat % 8) * 262144 + (b.toNat % 64) * 4096 + (c.toNat % 64) * 64 + d.toNat % 64, 4)
        else (RuneError, 1)
      | [] => (RuneError, 1)
    else (RuneError, 1)

/-- The test `utf8.ValidRune(r)`. -/
def ValidRune (r : Nat) : Bool := r < 0xD800 ∨ (0xDFFF < r ∧ r ≤ 0x10FFFF)

/-- The bytes `utf8.AppendRune` appends for the rune `r`. -/
def AppendRune (r : Nat) : GoString :=
  if r < 0x80 then [UInt8.ofNat r]
  else if r < 0x800 then [UInt8.ofNat (0xC0 + r / 64), UInt8.ofNat (0x80 + r % 64)]
  else if ¬ ValidRune r then [0xEF, 0xBF, 0xBD]
  else if r < 0x10000 then
    [UInt8.ofNat (0xE0 + r / 4096), UInt8.ofNat (0x80 + r / 64 % 64), UInt8.ofNat (0x80 + r % 64)]
  else
    [UInt8.ofNat (0xF0 + r / 262144), UInt8.ofNat (0x80 + r / 4096 % 64),
     UInt8.ofNat (0x80 + r / 64 % 64), UInt8.ofNat (0x80 + r % 64)]

/-! ## Package `strconv` -/

/-- The value of a hexadecimal digit (`unhex`). -/
def unhex (c : UInt8) : Option Nat :=
  if 0x30 ≤ c ∧ c ≤ 0x39 then some (c.toNat - 0x30)
  else if 0x61 ≤ c ∧ c ≤ 0x66 then some (c.toNat - 0x61 + 10)
  else if 0x41 ≤ c ∧ c ≤ 0x46 then some (c.toNat - 0x41 + 10)
  else none

/-- The value of the hexadecimal digits `ds`, most significant first; `none` when one of
them is not a digit. -/
def hexValue (ds : GoString) : Option Nat :=
  ds.foldl (fun (acc : Option Nat) (c : UInt8) => match acc, unhex c with
    | some v, some x => some (v * 16 + x)
    | _, _ => none) (some 0)

/-- The value of the octal digits `ds`, continuing from `v`; `none` when one of them is
not an octal digit. -/
def octValue (v : Nat) (ds : GoString) : Option Nat :=
  ds.foldl (fun (acc : Option Nat) (c : UInt8) => match acc with
    | some w => if 0x30 ≤ c ∧ c ≤ 0x37 then some (w * 8 + (c.toNat - 0x30)) else none
    | none => none) (some v)

/-- The call `strconv.UnquoteChar(s, quote)`: the first character or escape sequence of
`s`, as (value, multibyte, tail); `none` stands for `ErrSyntax`. -/
def UnquoteChar (s : GoString) (quote : UInt8) : Option (Nat × Bool × GoString) :=
  match s with
  | [] => none
  | c :: rest =>
    if c = quote ∧ (quote = 0x27 ∨ quote = 0x22) then none
    else if 0x80 ≤ c then
      let d := DecodeRuneInString s
      some (d.1, true, s.drop d.2)
    else if c ≠ 0x5C then some (c.toNat, false, rest)
    else match rest with
      | [] => none
      | e :: t =>
        if e = 0x61 then some (7, false, t)
        else if e = 0x62 then some (8, false, t)
        else if e = 0x66 then some (12, false, t)
        else if e = 0x6E then some (10, false, t)
        else if e = 0x72 then some (13, false, t)
        else if e = 0x74 then some (9, false, t)
        else if e = 0x76 then some (11, false, t)
        else if e = 0x78 ∨ e = 0x75 ∨ e = 0x55 then
          let n := if e = 0x78 then 2 else if e = 0x75 then 4 else 8
          if t.length < n then none
          else match hexValue (t.take n) with
            | none => none
            | some v =>
              if e = 0x78 then some (v, false, t.drop n)
              else if ¬ ValidRune v then none
              else some (v, true, t.drop n)
        else if 0x30 ≤ e ∧ e ≤ 0x37 then
          if t.length < 2 then none
          else match octValue (e.toNat - 0x30) (t.take 2) with
            | none => none
            | some v => if v > 255 then none else some (v, false, t.drop 2)
        else if e = 0x5C then some (0x5C, false, t)
        else if e = 0x27 ∨ e = 0x22 then
          if e ≠ quote then none else some (e.toNat, false, t)
        else none

/-- The loop of `strconv.unquote` over the characters of a quoted string, then the test
for the terminating quote: the unquoted bytes and what follows the terminating quote.
Each round takes at least one byte of `s`, so a counter of `s.length` never runs out. -/
def unquoteLoop (quote : UInt8) : Nat → GoString → GoString → Option (GoString × GoString)
  | 0, s, buf =>
    match s with
    | c :: rest => if c = quote then some (buf, rest) else none
    | [] => none
  | fuel + 1, s, buf =>
    match s with
    | [] => none
    | c :: rest =>
      if c = quote then some (buf, rest)
      else match UnquoteChar s quote with
        | none => none
        | some (r, multibyte, tail) =>
          if c = 0x0A then none
          else
            let buf1 := if r < 0x80 ∨ ¬ multibyte then buf ++ [UInt8.ofNat r] else buf ++ AppendRune r
            if quote = 0x27 then
              match tail with
              | q :: rest1 => if q = quote then some (buf1, rest1) else none
              | [] => none
            else unquoteLoop quote fuel tail buf1

/-- The call `strconv.Unquote(s)`: the string a Go string literal denotes, `ErrSyntax`
when `s` is not a literal; the string is empty when the error is not nil. -/
def Unquote (s : GoString) : GoString × Option GoError :=
  match s with
  | [] => ([], some .ErrSyntax)
  | [_] => ([], some .ErrSyntax)
  | quote :: rest =>
    if stringsIndex rest quote < 0 then ([], some .ErrSyntax)
    else if quote = 0x60 then
      let e := (stringsIndex rest quote).toNat
      if rest.length > e + 1 then ([], some .ErrSyntax)
      else (stringsRemove (rest.take e) 0x0D, none)
    else if quote = 0x22 ∨ quote = 0x27 then
      match unquoteLoop quote rest.length rest [] with
      | some (out, []) => (out, none)
      | _ => ([], some .ErrSyntax)
    else ([], some .ErrSyntax)

/-- The value of the decimal digits `ds`, continuing from `v`; `none` when one of them is
not a digit. -/
def decValue (v : Nat) : GoString → Option Nat
  | [] => some v
  | c :: rest => if 0x30 ≤ c ∧ c ≤ 0x39 then decValue (v * 10 + (c.toNat - 0x30)) rest else none

/-- The loop of `strconv.ParseUint(s, 10, 64)` over the bytes of `s`, from the value `n`:
a byte that is not a digit is a syntax error, and a value that leaves the range of
`uint64` is a range error, whichever comes first. -/
def parseUintLoop : GoString → Nat → Nat × Option GoError
  | [], n => (n, none)
  | c :: rest, n =>
    if ¬ (0x30 ≤ c ∧ c ≤ 0x39) then (0, some .ErrSyntax)
    else if n ≥ (2 ^ 64 - 1) / 10 + 1 then (2 ^ 64 - 1, some .ErrRange)
    else if n * 10 + (c.toNat - 0x30) > 2 ^ 64 - 1 then (2 ^ 64 - 1, some .ErrRange)
    else parseUintLoop rest (n * 10 + (c.toNat - 0x30))

/-- The call `strconv.ParseUint(s, 10, 64)`. -/
def ParseUint (s : GoString) : Nat × Option GoError :=
  if s = [] then (0, some .ErrSyntax) else parseUintLoop s 0

/-- The call `strconv.ParseInt(s, 10, 0)`, with an `int` of 64 bits. -/
def ParseInt (s : GoString) : Int × Option GoError :=
  if s = [] then (0, some .ErrSyntax)
  else
    let neg : Bool := s.head? = some 0x2D
    let ds := if s.head? = some 0x2B ∨ s.head? = some 0x2D then s.drop 1 else s
    match ParseUint ds with
    | (_, some .ErrSyntax) => (0, some .ErrSyntax)
    | (_, some .EOF) => (0, some .EOF)
    | (un, _) =>
      if ¬ neg ∧ un ≥ 2 ^ 63 then ((2 ^ 63 : Int) - 1, some .ErrRange)
      else if neg ∧ un > 2 ^ 63 then (-(2 ^ 63 : Int), some .ErrRange)
      else (if neg then -(un : Int) else (un : Int), none)

/-- The call `strconv.Atoi(s)`: strings of fewer than 19 bytes take the fast path, which
reads an optional sign and decimal digits; the others go to `ParseInt`. -/
def Atoi (s : GoString) : Int × Option GoError :=
  if 0 < s.length ∧ s.length < 19 then
    let signed : Bool := s.head? = some 0x2D ∨ s.head? = some 0x2B
    let ds := if signed then s.drop 1 else s
    if signed ∧ ds.length < 1 then (0, some .ErrSyntax)
    else match decValue 0 ds with
      | none => (0, some .ErrSyntax)
      | some n => (if s.head? = some 0x2D then -(n : Int) else (n : Int), none)
  else ParseInt s

/-! ## Package `regexp`

The three expressions of the sources are sequences of single characters, of greedy
repetitions of a character class and of the assertions `^` and `$`.  A match is the one a
backtracking search finds first (leftmost, a repetition taking as much as it can), which
is the match Go reports.  The classes hold ASCII bytes only and `.` excludes the line
feed only, so that matching bytes is matching runes. -/

/-- One item of a regular expression. -/
inductive ReItem where
  | one (p : UInt8 → Bool)
  | many (p : UInt8 → Bool)
  | beginText
  | endText

/-- A regular expression: the concatenation of its items. -/
abbrev Regexp := List ReItem

/-- The class `\s` of Go regular expressions: tab, line feed, form feed, carriage return
and space. -/
def reSpace (c : UInt8) : Bool := c = 0x09 ∨ c = 0x0A ∨ c = 0x0C ∨ c = 0x0D ∨ c = 0x20

/-- The class `.`: every character but the line feed. -/
def reAny (c : UInt8) : Bool := c ≠ 0x0A

/-- The class of the one byte `b`. -/
def reByte (b : UInt8) (c : UInt8) : Bool := c = b

/-- A greedy repetition of the class `p` followed by the continuation `k`: the longest
run is tried first, then the shorter ones. -/
def manyGreedy (p : UInt8 → Bool) (k : GoString → Nat → Option Nat) : GoString → Nat → Option Nat
  | [], pos => k [] pos
  | c :: s, pos =>
    if p c then
      match manyGreedy p k s (pos + 1) with
      | some e => some e
      | none => k (c :: s) pos
    else k (c :: s) pos

/-- The end of the match of `re` that starts at offset `pos`, where `s` is the text from
`pos` on; `none` when there is no match there. -/
def matchAt : Regexp → GoString → Nat → Option Nat
  | [], _, pos => some pos
  | .one _ :: _, [], _ => none
  | .one p :: re, c :: s, pos => if p c then matchAt re s (pos + 1) else none
  | .many p :: re, s, pos => manyGreedy p (fun s1 pos1 => matchAt re s1 pos1) s pos
  | .beginText :: re, s, pos => if pos = 0 then matchAt re s pos else none
  | .endText :: re, s, pos => if s.isEmpty then matchAt re s pos else none

/-- The leftmost match of `re` at or after offset `pos`, as (start, end). -/
def findAt (re : Regexp) : GoString → Nat → Option (Nat × Nat)
  | [], pos => (matchAt re [] pos).map (fun e => (pos, e))
  | c :: s, pos =>
    match matchAt re (c :: s) pos with
    | some e => some (pos, e)
    | none => findAt re s (pos + 1)

/-- The method `MatchString`: is there a match anywhere in `s`. -/
def Regexp.MatchString (re : Regexp) (s : GoString) : Bool := (findAt re s 0).isSome

/-- The loop of `allMatches` behind `FindAllStringIndex(s, n)`: the successive matches,
none of them overlapping; an empty match is not taken right after another match, and
the search goes on one rune further. `i` counts the matches delivered. -/
def allMatches (re : Regexp) (s : GoString) (n : Nat) :
    Nat → Nat → Nat → Int → List (Nat × Nat)
  | 0, _, _, _ => []
  | fuel + 1, pos, i, prevMatchEnd =>
    if i < n ∧ pos ≤ s.length then
      match findAt re (s.drop pos) pos with
      | none => []
      | some (m0, m1) =>
        let accept : Bool := ¬ (m1 = pos ∧ (m0 : Int) = prevMatchEnd)
        let width := (DecodeRuneInString (s.drop pos)).2
        let pos1 := if m1 = pos then (if width > 0 then pos + width else s.length + 1) else m1
        if accept then (m0, m1) :: allMatches re s n fuel pos1 (i + 1) m1
        else allMatches re s n fuel pos1 i m1
    else []

/-- The method `Split(s, -1)` of a non-empty expression: the text between the matches. -/
def Regexp.Split (re : Regexp) (s : GoString) : List GoString :=
  if s.length = 0 then [[]]
  else
    let found := allMatches re s (s.length + 1) (s.length + 2) 0 0 (-1)
    let st := found.foldl
      (fun (st : List GoString × Nat × Nat) (m : Nat × Nat) =>
        (if m.2 ≠ 0 then st.1 ++ [(s.take m.1).drop st.2.1] else st.1, m.2, m.1))
      (([] : List GoString), 0, 0)
    if st.2.2 ≠ s.length then st.1 ++ [s.drop st.2.1] else st.1

/-- The expression of `reStringLine`: a quoted string line. -/
def reStringLine : Regexp :=
  [.beginText, .many reSpace, .one (reByte 0x22), .many reAny, .one (reByte 0x22),
   .many reSpace, .endText]

/-- The expression of `reBlocks`: a line feed, white space, a line feed. -/
def reBlocks : Regexp := [.one (reByte 0x0A), .many reSpace, .one (reByte 0x0A)]

/-- The expression of `reBlankLine`: white space only. -/
def reBlankLine : Regexp := [.beginText, .many reSpace, .endText]

/-! ## line_reader.go -/

/-- The line cursor: the lines of a block and the index of the current line. -/
structure lineReader where
  lines : List GoString
  linenum : Int
  deriving DecidableEq, Repr

/-- Carriage returns are removed, then the text is split at line feeds. -/
def newLineReader (data : GoString) : lineReader :=
  { lines := stringsSplit (stringsRemove data 0x0D) 0x0A, linenum := 0 }

/-- The index expression `r.lines[r.linenum]`, which panics out of range. -/
def lineReader.lineAt (r : lineReader) : Run GoString :=
  if 0 ≤ r.linenum then
    match r.lines[r.linenum.toNat]? with
    | some l => .ok l
    | none => .panic "index out of range"
  else .panic "index out of range"

/-- The loop of `skipBlankLine`: the cursor moves on while the line is empty once
trimmed. -/
def skipBlankLineLoop : Nat → lineReader → Run lineReader
  | 0, _ => .timeout
  | fuel + 1, r =>
    if r.linenum < r.lines.length then
      match r.lineAt with
      | .ok l =>
        if TrimSpace l ≠ [] then .ok r
        else skipBlankLineLoop fuel { r with linenum := r.linenum + 1 }
      | .panic m => .panic m
      | .timeout => .timeout
    else .ok r

/-- Skips the blank lines at the cursor; `io.EOF` when no line is left. -/
def lineReader.skipBlankLine (r : lineReader) : Run (Option GoError × lineReader) :=
  match skipBlankLineLoop (r.lines.length + 1) r with
  | .ok r1 => if r1.linenum ≥ r1.lines.length then .ok (some .EOF, r1) else .ok (none, r1)
  | .panic m => .panic m
  | .timeout => .timeout

/-- The cursor position. -/
def lineReader.currentLinenum (r : lineReader) : Int := r.linenum

/-- The line at the cursor and its number, or `io.EOF`; the cursor stays. -/
def lineReader.currentLine (r : lineReader) : Run (GoString × Int × Option GoError) :=
  if r.linenum ≥ r.lines.length then .ok ([], 0, some .EOF)
  else match r.lineAt with
    | .ok l => .ok (l, r.linenum, none)
    | .panic m => .panic m
    | .timeout => .timeout

/-- The line at the cursor and its number, or `io.EOF`; the cursor moves on by one
line when a line is read. -/
def lineReader.readLine (r : lineReader) : Run (GoString × Int × Option GoError × lineReader) :=
  if r.linenum ≥ r.lines.length then .ok ([], 0, some .EOF, r)
  else match r.lineAt with
    | .ok l => .ok (l, r.linenum, none, { r with linenum := r.linenum + 1 })
    | .panic m => .panic m
    | .timeout => .timeout

/-- The cursor moves back by one line when it is not negative. -/
def lineReader.unreadLine (r : lineReader) : lineReader :=
  if r.linenum ≥ 0 then { r with linenum := r.linenum - 1 } else r

/-- The loop of `readString`: the quoted string lines that follow are read and their
unquoted contents appended to `msg`; the first line that is not one is put back. -/
def readStringLoop (pfx : GoString) : Nat → lineReader → GoString →
    Run (GoString × Option GoError × lineReader)
  | 0, _, _ => .timeout
  | fuel + 1, r, msg =>
    match r.readLine with
    | .ok (_, _, some e, r1) => .ok (msg, some e, r1)
    | .ok (s, _, none, r1) =>
      let s1 := if pfx.length > 0 then CutPrefix s pfx else s
      if ¬ reStringLine.MatchString s1 then .ok (msg, none, r1.unreadLine)
      else readStringLoop pfx fuel r1 (msg ++ (Unquote s1).1)
    | .panic m => .panic m
    | .timeout => .timeout

/-- The quoted string that starts with `head` and goes on over the following lines;
`vars` holds the optional leading text to cut from each following line.  The loop reads
one line per round, so a counter of one more than the number of lines never runs out. -/
def lineReader.readString (r : lineReader) (head : GoString) (vars : List GoString) :
    Run (GoString × Option GoError × lineReader) :=
  let pfx : GoString := match vars with
    | v :: _ => if v ≠ [] then v else []
    | [] => []
  if ¬ reStringLine.MatchString head then .ok ([], none, r)
  else match Unquote head with
    | (msg, some e) => .ok (msg, some e, r)
    | (msg, none) => readStringLoop pfx (r.lines.length + 1) r msg

/-! ## translation.go -/

/-- One entry of a catalog. -/
structure Translation where
  ID : GoString
  PluralID : GoString
  Trs : GoMap Int GoString
  Refs : List GoString
  dirty : Bool
  hasCtx : Bool
  Ctx : GoString
  TranslatorComment : List GoString
  ExtractedComment : List GoString
  Flags : List GoString
  PrevMsgContext : GoString
  PrevMsgId : GoString
  deriving DecidableEq, Repr

/-- A new entry: every field has its zero value and the map of variants is empty. -/
def NewTranslation : Translation :=
  { ID := [], PluralID := [], Trs := [], Refs := [], dirty := false, hasCtx := false,
    Ctx := [], TranslatorComment := [], ExtractedComment := [], Flags := [],
    PrevMsgContext := [], PrevMsgId := [] }

/-- A new entry with the given references. -/
def NewTranslationWithRefs (refs : List GoString) : Translation :=
  { NewTranslation with Refs := refs }

namespace Translation

/-- An entry is stale when it is not dirty. -/
def IsStale (t : Translation) : Bool := ! t.dirty

/-- Replaces the references. -/
def SetRefs (t : Translation) (refs : List GoString) : Translation :=
  { t with Refs := refs, dirty := true }

/-- The loop of `hasRef` over the references. -/
def hasRefLoop (ref : GoString) : List GoString → Bool
  | [] => false
  | x :: rest => if ref = x then true else hasRefLoop ref rest

/-- Is `ref` among the references. -/
def hasRef (t : Translation) (ref : GoString) : Bool := hasRefLoop ref t.Refs

/-- Appends the references that the entry does not hold yet. -/
def AddRefs (t : Translation) (refs : List GoString) : Translation :=
  refs.foldl
    (fun (t : Translation) (ref : GoString) =>
      if ¬ t.hasRef ref then { t with dirty := true, Refs := t.Refs ++ [ref] } else t)
    t

/-- Empties the references. -/
def ClearRefs (t : Translation) : Translation :=
  { t with Refs := t.Refs.take 0, dirty := true }

/-- Sets variant 0. -/
def Set (t : Translation) (str : GoString) : Translation :=
  { t with Trs := t.Trs.set 0 str, dirty := true }

/-- The singular translation, or the id when there is none. -/
def Get (t : Translation) : GoString :=
  match t.Trs.get 0 with
  | some v => if v ≠ [] then v else t.ID
  | none => t.ID

/-- Sets variant `n`. -/
def SetN (t : Translation) (n : Int) (str : GoString) : Translation :=
  { t with Trs := t.Trs.set n str, dirty := true }

/-- The translation of variant `n`, or the untranslated text when there is none. -/
def GetN (t : Translation) (n : Int) : GoString :=
  match t.Trs.get n with
  | some v => if v ≠ [] then v else (if n = 0 then t.ID else t.PluralID)
  | none => if n = 0 then t.ID else t.PluralID

/-- Is variant 0 translated. -/
def IsTranslated (t : Translation) : Bool :=
  match t.Trs.get 0 with
  | some tr => tr ≠ []
  | none => false

/-- Is variant `n` translated. -/
def IsTranslatedN (t : Translation) (n : Int) : Bool :=
  match t.Trs.get n with
  | some tr => tr ≠ []
  | none => false

/-- Appends a translator comment. -/
def readTranslatorComment (t : Translation) (s : GoString) : Translation :=
  { t with TranslatorComment := t.TranslatorComment ++ [s] }

/-- Appends an extracted comment. -/
def readExtractedComment (t : Translation) (s : GoString) : Translation :=
  { t with ExtractedComment := t.ExtractedComment ++ [s] }

/-- The references of a `#:` line, split at spaces, are appended; empty ones are left out. -/
def readReferenceComment (t : Translation) (s : GoString) : Translation :=
  if s.length < 2 ∨ s.take 2 ≠ [0x23, 0x3A] then t
  else
    (stringsSplit (TrimSpace (s.drop 2)) 0x20).foldl
      (fun (t : Translation) (x : GoString) =>
        if x.length > 0 then { t with Refs := t.Refs ++ [x] } else t)
      t

/-- The flags of a `#,` line, split at commas and trimmed, are appended. -/
def readFlagsComment (t : Translation) (s : GoString) : Translation :=
  if s.length < 2 ∨ s.take 2 ≠ [0x23, 0x2C] then t
  else
    (stringsSplit (TrimSpace (s.drop 2)) 0x2C).foldl
      (fun (t : Translation) (x : GoString) => { t with Flags := t.Flags ++ [TrimSpace x] })
      t

/-- The previous id or context of a `#|` line, read as a quoted string whose following
lines start with `#|`. -/
def readPrevMsg (t : Translation) (r : lineReader) (l : GoString) :
    Run (Translation × lineReader) :=
  if l.length < 2 ∨ l.take 2 ≠ [0x23, 0x7C] then .ok (t, r)
  else
    let str := TrimSpace (l.drop 2)
    if HasPrefix str (bytes "msgid") then
      match r.readString (CutPrefix str (bytes "msgid")) [[0x23, 0x7C]] with
      | .ok (msg, _, r1) => .ok ({ t with PrevMsgId := msg }, r1)
      | .panic m => .panic m
      | .timeout => .timeout
    else if HasPrefix str (bytes "msgctxt") then
      match r.readString (CutPrefix str (bytes "msgctxt")) [[0x23, 0x7C]] with
      | .ok (msg, _, r1) => .ok ({ t with PrevMsgContext := msg }, r1)
      | .panic m => .panic m
      | .timeout => .timeout
    else .ok (t, r)

end Translation

/-! ## po.go -/

/-- The header map of a catalog. -/
abbrev HeaderMap := GoMap GoString (List GoString)

/-- Modelled from the spec: the declaration of `Domain` is not among the sources. The
store holds the entries and three indexes over them, by id, by (context, id) and by
plural id, together with the header fields. The indexes hold pointers to entries; a
pointer is the position of the entry in `heap`. -/
structure Domain where
  heap : List Translation
  translations : GoMap GoString Nat
  contextTranslations : GoMap GoString (GoMap GoString Nat)
  pluralTranslations : GoMap GoString Nat
  Headers : HeaderMap
  Language : GoString
  PluralForms : GoString
  deriving DecidableEq, Repr

/-- An empty store. -/
def NewDomain : Domain :=
  { heap := [], translations := [], contextTranslations := [], pluralTranslations := [],
    Headers := [], Language := [], PluralForms := [] }

/-- The entry filed under the plain id `id`. -/
def Domain.entry (d : Domain) (id : GoString) : Option Translation :=
  match d.translations.get id with
  | some p => d.heap[p]?
  | none => none

/-- The entry filed under the context `ctx` and the id `id`. -/
def Domain.entryC (d : Domain) (ctx id : GoString) : Option Translation :=
  match d.contextTranslations.get ctx with
  | some m =>
    match m.get id with
    | some p => d.heap[p]?
    | none => none
  | none => none

/-- The catalog object; `domain` is nil unless `NewPo` made the object. -/
structure Po where
  Headers : HeaderMap
  Language : GoString
  PluralForms : GoString
  domain : Option Domain
  deriving DecidableEq, Repr

/-- A catalog object with an empty store. -/
def NewPo : Po := { Headers := [], Language := [], PluralForms := [], domain := some NewDomain }

/-- One comment line is read and stored in the entry, by the character after `#`. -/
def parseComment (tr : Translation) (r : lineReader) : Run (Translation × lineReader) :=
  match r.readLine with
  | .ok (_, _, some _, r1) => .ok (tr, r1)
  | .ok (l, _, none, r1) =>
    match l[1]? with
    | none => .panic "index out of range"
    | some c =>
      if c = 0x20 then
        match sliceFrom l 2 with
        | some s => .ok (tr.readTranslatorComment (TrimSpace s), r1)
        | none => .panic "slice bounds out of range"
      else if c = 0x2E then
        match sliceFrom l 2 with
        | some s => .ok (tr.readExtractedComment (TrimSpace s), r1)
        | none => .panic "slice bounds out of range"
      else if c = 0x3A then .ok (tr.readReferenceComment l, r1)
      else if c = 0x2C then .ok (tr.readFlagsComment l, r1)
      else if c = 0x7C then tr.readPrevMsg r1 l
      else
        match sliceFrom l 1 with
        | some s => .ok (tr.readTranslatorComment (TrimSpace s), r1)
        | none => .panic "slice bounds out of range"
  | .panic m => .panic m
  | .timeout => .timeout

/-- One key and value line is read and stored in the entry `tr`, which the store knows
by the pointer `ptr`. -/
def parseString (d : Domain) (ptr : Nat) (tr : Translation) (r : lineReader) :
    Run (Domain × Translation × lineReader) :=
  match r.readLine with
  | .ok (_, _, some _, r1) => .ok (d, tr, r1)
  | .ok (l, _, none, r1) =>
    match stringsSplitN2 l 0x20 with
    | [key, s1] =>
      let val := TrimSpace s1
      if key = bytes "msgctxt" then
        match r1.readString val [] with
        | .ok (msg, err, r2) => .ok (d, { tr with Ctx := msg, hasCtx := (err = none) }, r2)
        | .panic m => .panic m
        | .timeout => .timeout
      else if key = bytes "msgid" then
        match r1.readString val [] with
        | .ok (msg, _, r2) => .ok (d, { tr with ID := msg }, r2)
        | .panic m => .panic m
        | .timeout => .timeout
      else if key = bytes "msgid_plural" then
        match r1.readString val [] with
        | .ok (msg, _, r2) =>
          .ok ({ d with pluralTranslations := d.pluralTranslations.set msg ptr },
               { tr with PluralID := msg }, r2)
        | .panic m => .panic m
        | .timeout => .timeout
      else if key = bytes "msgstr" then
        match r1.readString val [] with
        | .ok (msg, _, r2) => .ok (d, { tr with Trs := tr.Trs.set 0 msg }, r2)
        | .panic m => .panic m
        | .timeout => .timeout
      else if HasPrefix l (bytes "msgstr") then
        let sidx := stringsIndex l 0x5B
        let eidx := stringsIndex l 0x5D
        if sidx ≠ -1 ∧ eidx ≠ -1 then
          match slice l (sidx + 1) eidx with
          | none => .panic "slice bounds out of range"
          | some digits =>
            match Atoi digits with
            | (i, none) =>
              match r1.readString val [] with
              | .ok (msg, _, r2) => .ok (d, { tr with Trs := tr.Trs.set i msg }, r2)
              | .panic m => .panic m
              | .timeout => .timeout
            | (_, some _) => .ok (d, tr, r1)
        else .ok (d, tr, r1)
      else .ok (d, tr, r1)
    | _ => .panic "syntax error"
  | .panic m => .panic m
  | .timeout => .timeout

/-- The loop of `Parse` over the lines of one block: it ends at the end of the block or
at a blank line; a line that is not empty once trimmed goes to `parseComment` when it
starts with `#` and to `parseString` otherwise. -/
def parseLines : Nat → Domain → Nat → Translation → lineReader →
    Run (Domain × Translation × lineReader)
  | 0, _, _, _, _ => .timeout
  | fuel + 1, d, ptr, tr, r =>
    match r.currentLine with
    | .ok (_, _, some _) => .ok (d, tr, r)
    | .ok (l, _, none) =>
      if reBlankLine.MatchString l then .ok (d, tr, r)
      else
        match TrimSpace l with
        | [] => parseLines fuel d ptr tr r
        | c :: _ =>
          if c = 0x23 then
            match parseComment tr r with
            | .ok (tr1, r1) => parseLines fuel d ptr tr1 r1
            | .panic m => .panic m
            | .timeout => .timeout
          else
            match parseString d ptr tr r with
            | .ok (d1, tr1, r1) => parseLines fuel d1 ptr tr1 r1
            | .panic m => .panic m
            | .timeout => .timeout
    | .panic m => .panic m
    | .timeout => .timeout

/-- The entry `tr`, kept at `ptr`, is filed: under its context and id when it has a
context, under its id otherwise. -/
def fileEntry (d : Domain) (ptr : Nat) (tr : Translation) : Domain :=
  let d1 := { d with heap := d.heap.set ptr tr }
  if tr.hasCtx then
    let inner : GoMap GoString Nat := match d1.contextTranslations.get tr.Ctx with
      | some m => m
      | none => []
    { d1 with contextTranslations := d1.contextTranslations.set tr.Ctx (inner.set tr.ID ptr) }
  else { d1 with translations := d1.translations.set tr.ID ptr }

/-- The body of the loop of `Parse` over the blocks: a new entry is made, the lines of
the block are parsed into it when the block has a line that is not blank, and the entry
is filed. -/
def parseBlock (fuel : Nat) (d : Domain) (block : GoString) : Run Domain :=
  let ptr := d.heap.length
  let tr := NewTranslation
  let d0 := { d with heap := d.heap ++ [tr] }
  match (newLineReader block).skipBlankLine with
  | .ok (none, r) =>
    match parseLines fuel d0 ptr tr r with
    | .ok (d1, tr1, _) => .ok (fileEntry d1 ptr tr1)
    | .panic m => .panic m
    | .timeout => .timeout
  | .ok (some _, _) => .ok (fileEntry d0 ptr tr)
  | .panic m => .panic m
  | .timeout => .timeout

/-- The loop of `Parse` over the blocks. -/
def parseBlocks (fuel : Nat) : Domain → List GoString → Run Domain
  | d, [] => .ok d
  | d, block :: rest =>
    match parseBlock fuel d block with
    | .ok d1 => parseBlocks fuel d1 rest
    | .panic m => .panic m
    | .timeout => .timeout

/-- The catalog text `buf` is parsed into the store of `po`. The method `parseHeaders`
of the store is not among the sources and is a parameter; `fuel` bounds the rounds of
the loop over the lines of each block. The two locks are left out. -/
def Po.Parse (parseHeaders : Domain → Domain) (fuel : Nat) (po : Po) (buf : GoString) : Run Po :=
  match po.domain with
  | none => .panic "NewPo() was not used to instantiate this object"
  | some d =>
    let blocks := reBlocks.Split buf
    if blocks.length = 0 then .panic "Po file syntax error"
    else
      match parseBlocks fuel d blocks with
      | .ok d1 =>
        let d2 := parseHeaders d1
        .ok { Headers := d2.Headers, Language := d2.Language, PluralForms := d2.PluralForms,
              domain := some d2 }
      | .panic m => .panic m
      | .timeout => .timeout

/-! ## Specification-side definitions -/

/-- The elements of a list, each at its first occurrence only. -/
def firstOccurrences {α : Type} [DecidableEq α] : List α → List α
  | [] => []
  | x :: rest => x :: (firstOccurrences rest).filter (fun y => y ≠ x)

/-- An entry with the id `apple`, no plural id and no variant. -/
def appleEntry : Translation := { NewTranslation with ID := bytes "apple" }

/-- The text a line of the loop of `readString` is tested and unquoted as: the line
without the leading `pfx` when `pfx` is not empty. -/
def cutLine (pfx s : GoString) : GoString := if pfx.length > 0 then CutPrefix s pfx else s

/-- A reader on the lines `"hello\n"`, `"hi"` and `msgid "x"`. -/
def helloReader : lineReader :=
  { lines := [bytes "\"hello\\n\"", bytes "\"hi\"", bytes "msgid \"x\""], linenum := 0 }

/-- A catalog of one header entry, with one line feed at its end. -/
def headerCatalog : GoString := bytes "msgid \"\"\nmsgstr \"Language: zh_CN\\n\"\n"

/-- The catalog `headerCatalog` followed by a blank line. -/
def headerCatalogBlank : GoString := bytes "msgid \"\"\nmsgstr \"Language: zh_CN\\n\"\n\n"

/-- The header entry of `headerCatalog`. -/
def headerEntry : Translation := { NewTranslation with Trs := [(0, bytes "Language: zh_CN\n")] }

/-- The store after the blocks of `headerCatalog`. -/
def headerDomain : Domain := { NewDomain with heap := [headerEntry], translations := [([], 0)] }

/-- The store after the blocks of `headerCatalogBlank`. -/
def headerBlankDomain : Domain :=
  { NewDomain with heap := [headerEntry, NewTranslation], translations := [([], 1)] }

/-- The catalog object that `Parse` returns for the store `d`. -/
def poOf (d : Domain) : Po :=
  { Headers := d.Headers, Language := d.Language, PluralForms := d.PluralForms, domain := some d }

/-- The key of a key and value line: the text before the first space. -/
def keyOf (l : GoString) : GoString := l.take (stringsIndex l 0x20).toNat

/-- The keys that `parseString` knows by name. -/
def knownKeys : List GoString :=
  [bytes "msgctxt", bytes "msgid", bytes "msgid_plural", bytes "msgstr"]

/-- The line starts with `msgstr` and holds an index in brackets that `parseString`
takes: both brackets are there, and the text between them is an integer or the closing
bracket comes first. -/
def takesIndex (l : GoString) : Bool :=
  HasPrefix l (bytes "msgstr") ∧ stringsIndex l 0x5B ≠ -1 ∧ stringsIndex l 0x5D ≠ -1 ∧
    (stringsIndex l 0x5D ≤ stringsIndex l 0x5B ∨
      (Atoi ((l.take (stringsIndex l 0x5D).toNat).drop ((stringsIndex l 0x5B).toNat + 1))).2 = none)

/-- A catalog of one block whose last line is a valid `msgctxt` line. -/
def ctxLastCatalog : GoString := bytes "msgid \"apple\"\nmsgctxt \"c\""

/-- The store after the blocks of `ctxLastCatalog`. -/
def ctxLastDomain : Domain :=
  { NewDomain with
    heap := [{ appleEntry with Ctx := bytes "c", hasCtx := false }],
    translations := [(bytes "apple", 0)] }

/-- A catalog of one block whose `msgctxt` value is not a quoted string. -/
def ctxBareCatalog : GoString := bytes "msgctxt foo\nmsgid \"apple\""

/-- The store after the blocks of `ctxBareCatalog`. -/
def ctxBareDomain : Domain :=
  { NewDomain with
    heap := [{ appleEntry with Ctx := [], hasCtx := true }],
    contextTranslations := [([], [(bytes "apple", 0)])] }

/-! ## plurals/expression.go -/

/-- A plural expression. The interface `Expression` has two implementations, `constValue`
and `ternary`; a nil branch of a `ternary` is `none`. The implementations of the
interface `test` are not among the sources: a test is taken as the function of `n` that
its method `test` computes. The argument `n` is a `uint32`, a natural number here. -/
inductive Expression where
  | constValue (value : Int)
  | ternary (test : Nat → Bool) (trueExpr falseExpr : Option Expression)

/-- The method `Eval` of `constValue` and of `ternary`. -/
def Expression.Eval : Expression → Nat → Int
  | .constValue value, _ => value
  | .ternary test trueExpr falseExpr, n =>
    if test n then
      match trueExpr with
      | none => -1
      | some e => e.Eval n
    else
      match falseExpr with
      | none => -1
      | some e => e.Eval n

/-- The end of the path that `n` selects in a tree: the value of the constant leaf it
reaches, or `none` when it reaches an absent branch. -/
def Expression.pathEnd : Expression → Nat → Option Int
  | .constValue value, _ => some value
  | .ternary test trueExpr falseExpr, n =>
    if test n then
      match trueExpr with
      | none => none
      | some e => e.pathEnd n
    else
      match falseExpr with
      | none => none
      | some e => e.pathEnd n

/-- The values of the constant leaves of a tree. -/
def Expression.leafValues : Expression → List Int
  | .constValue value => [value]
  | .ternary _ trueExpr falseExpr =>
    (match trueExpr with
      | none => []
      | some e => e.leafValues) ++
    (match falseExpr with
      | none => []
      | some e => e.leafValues)

/-- No branch of the tree is absent. -/
def Expression.noAbsent : Expression → Prop
  | .constValue _ => True
  | .ternary _ trueExpr falseExpr =>
    (match trueExpr with
      | none => False
      | some e => e.noAbsent) ∧
    (match falseExpr with
      | none => False
      | some e => e.noAbsent)

/-- The test of the rule `n != 1`. -/
def testNotOne (n : Nat) : Bool := n != 1

/-- The test that holds for every `n`. -/
def testAlways (_ : Nat) : Bool := true

/-- The tree of the rule `plural=(n != 1)`: 1 when `n != 1` and 0 otherwise. -/
def notOneExpr : Expression :=
  .ternary testNotOne (some (.constValue 1)) (some (.constValue 0))

/-- A `ternary` whose branches are both absent. -/
def absentExpr : Expression := .ternary testAlways none none

/-- A `ternary` whose true branch is the tree `absentExpr`. -/
def nestedAbsentExpr : Expression := .ternary testAlways (some absentExpr) none

/-- The store after the blocks of the empty input. -/
def emptyInputDomain : Domain :=
  { NewDomain with heap := [NewTranslation], translations := [([], 0)] }

/-- A reader on a `#| msgid` line, its continuation line and a `msgid` line. -/
def prevMsgLines : List GoString :=
  [bytes "#| msgid \"a\"", bytes "#| \"b\"", bytes "msgid \"x\""]

/-- The lines of `prevMsgLines` with no space between `msgid` and its value. -/
def prevMsgTightLines : List GoString :=
  [bytes "#| msgid\"a\"", bytes "#| \"b\"", bytes "msgid \"x\""]

/-- A catalog whose second line holds a vertical tab only. -/
def verticalTabCatalog : GoString := bytes "msgid \"a\"\n\x0b"

/-- A catalog whose second line holds the ideographic space U+3000 only. -/
def wideSpaceCatalog : GoString := bytes "msgid \"a\"\n　"

/-! ## Sequences of operations on an entry -/

/-- The operations that write the references of an entry from outside the parser. -/
inductive RefOp where
  | setRefs (refs : List GoString)
  | addRefs (refs : List GoString)
  | clearRefs

/-- The entry after one operation. -/
def RefOp.apply (t : Translation) : RefOp → Translation
  | .setRefs refs => t.SetRefs refs
  | .addRefs refs => t.AddRefs refs
  | .clearRefs => t.ClearRefs

/-- The list that `SetRefs` is given holds no string twice; no condition on the other
operations. -/
def RefOp.clean : RefOp → Prop
  | .setRefs refs => refs.Nodup
  | .addRefs _ => True
  | .clearRefs => True

/-- The references named on a `#:` line: the text after `#:` is trimmed and split at
spaces, and the empty pieces are left out. -/
def refTokens (s : GoString) : List GoString :=
  (stringsSplit (TrimSpace (s.drop 2)) 0x20).filter (fun x => x ≠ [])

/-- The entries that the parser builds: a new entry, followed by steps of `parseString`
and of `parseComment` that return. -/
inductive ParserBuilt : Translation → Prop where
  | new : ParserBuilt NewTranslation
  | string (d : Domain) (ptr : Nat) (tr : Translation) (r : lineReader) (d1 : Domain)
      (tr1 : Translation) (r1 : lineReader) :
      ParserBuilt tr → parseString d ptr tr r = .ok (d1, tr1, r1) → ParserBuilt tr1
  | comment (tr : Translation) (r : lineReader) (tr1 : Translation) (r1 : lineReader) :
      ParserBuilt tr → parseComment tr r = .ok (tr1, r1) → ParserBuilt tr1

/-- A reader on the lines `#: a.go:1 b.go:2` and `msgid "apple"`. -/
def appleLines : List GoString := [bytes "#: a.go:1 b.go:2", bytes "msgid \"apple\""]

/-! ## The language of a regular expression -/

/-- The text `s`, which stands at offset `pos`, starts with a match of `re`: the
meaning of the items, stated without a search. -/
def Accepts : Regexp → GoString → Nat → Prop
  | [], _, _ => True
  | .one p :: re, s, pos => ∃ c t, s = c :: t ∧ p c = true ∧ Accepts re t (pos + 1)
  | .many p :: re, s, pos =>
    ∃ j, j ≤ s.length ∧ (∀ x ∈ s.take j, p x = true) ∧ Accepts re (s.drop j) (pos + j)
  | .beginText :: re, s, pos => pos = 0 ∧ Accepts re s pos
  | .endText :: re, s, pos => s = [] ∧ Accepts re s pos

/-- The line without the white space of the class `\s` at its two ends. -/
def trimRe (s : GoString) : GoString :=
  ((s.dropWhile reSpace).reverse.dropWhile reSpace).reverse

/-! ## Runs of the cursor -/

/-- The cursor is in range: not negative and not past the number of lines. -/
def lineReader.inRange (r : lineReader) : Prop :=
  0 ≤ r.linenum ∧ r.linenum ≤ r.lines.length

/-- The readers that the operations of the cursor reach in a run: a new reader, followed
by steps of `skipBlankLine`, `readLine` and `readString` that return, and by
`unreadLine` where the sources call it, right after a `readLine` that returned a line.
The method `currentLine` leaves the reader as it is. -/
inductive CursorRun : lineReader → Prop where
  | new (data : GoString) : CursorRun (newLineReader data)
  | skip (r : lineReader) (e : Option GoError) (r1 : lineReader) :
      CursorRun r → r.skipBlankLine = .ok (e, r1) → CursorRun r1
  | read (r : lineReader) (l : GoString) (m : Int) (e : Option GoError) (r1 : lineReader) :
      CursorRun r → r.readLine = .ok (l, m, e, r1) → CursorRun r1
  | unread (r : lineReader) (l : GoString) (m : Int) (r1 : lineReader) :
      CursorRun r → r.readLine = .ok (l, m, none, r1) → CursorRun r1.unreadLine
  | readString (r : lineReader) (head : GoString) (vars : List GoString) (msg : GoString)
      (err : Option GoError) (r1 : lineReader) :
      CursorRun r → r.readString head vars = .ok (msg, err, r1) → CursorRun r1

/-! # Theorems -/

set_option maxRecDepth 100000

/-! ## Lookup of a translation -/

/-- C1: `Get` returns variant 0 when it is there and not empty, and the id both when
variant 0 is the empty string and when there is no variant 0. -/
theorem Get_variant_or_id (t : Translation) :
    (∀ v, t.Trs.get 0 = some v → v ≠ [] → t.Get = v) ∧
    (t.Trs.get 0 = some [] → t.Get = t.ID) ∧
    (t.Trs.get 0 = none → t.Get = t.ID) := by
  refine ⟨?_, ?_, ?_⟩
  · intro v hv hne
    simp [Translation.Get, hv, hne]
  · intro h
    simp [Translation.Get, h]
  · intro h
    simp [Translation.Get, h]

/-- The three cases of C1 on entries with the id `apple`: variant 0 set to `manzana`,
variant 0 empty, no variant 0. -/
theorem Get_variant_or_id_witness :
    ({ appleEntry with Trs := [(0, bytes "manzana")] } : Translation).Get = bytes "manzana" ∧
    ({ appleEntry with Trs := [(0, [])] } : Translation).Get = bytes "apple" ∧
    appleEntry.Get = bytes "apple" :=
  ⟨(Get_variant_or_id { appleEntry with Trs := [(0, bytes "manzana")] }).1 _ (by decide) (by decide),
   (Get_variant_or_id { appleEntry with Trs := [(0, [])] }).2.1 (by decide),
   (Get_variant_or_id appleEntry).2.2 (by decide)⟩

/-- Against C2 as stated: the entry `apple` has no plural id and no variant 1, and
`GetN 1` is the empty plural id, not the id. -/
theorem GetN_no_plural_counterexample :
    appleEntry.PluralID = [] ∧ appleEntry.Trs.get 1 = none ∧
    appleEntry.GetN 1 = [] ∧ appleEntry.GetN 1 ≠ appleEntry.ID := by
  decide

/-- C2, amended: with no variant at `n` that is not empty, `GetN n` is the id when
`n = 0` and the plural id otherwise, also when the plural id is empty. -/
theorem GetN_fallback (t : Translation) (n : Int)
    (h : ∀ v, t.Trs.get n = some v → v = []) :
    t.GetN n = if n = 0 then t.ID else t.PluralID := by
  unfold Translation.GetN
  cases hg : t.Trs.get n with
  | none => rfl
  | some v => simp [h v hg]

/-- The amended C2 on the entry `apple`, at the indexes 0 and 1. -/
theorem GetN_fallback_witness :
    appleEntry.GetN 0 = bytes "apple" ∧ appleEntry.GetN 1 = [] :=
  ⟨GetN_fallback appleEntry 0 (by decide), GetN_fallback appleEntry 1 (by decide)⟩

/-! ## References -/

theorem hasRefLoop_iff (ref : GoString) (l : List GoString) :
    Translation.hasRefLoop ref l = true ↔ ref ∈ l := by
  induction l with
  | nil => simp [Translation.hasRefLoop]
  | cons x rest ih =>
    by_cases hx : ref = x
    · simp [Translation.hasRefLoop, hx]
    · simp [Translation.hasRefLoop, hx, ih]

theorem firstOccurrences_filter {α : Type} [DecidableEq α] (p : α → Bool) (l : List α) :
    firstOccurrences (l.filter p) = (firstOccurrences l).filter p := by
  induction l with
  | nil => rfl
  | cons x rest ih =>
    by_cases hp : p x = true
    · simp only [List.filter_cons_of_pos hp, firstOccurrences, ih, List.filter_filter]
      congr 1
      apply List.filter_congr
      intro y _
      exact Bool.and_comm _ _
    · simp only [List.filter_cons_of_neg hp, firstOccurrences, ih, List.filter_filter]
      apply List.filter_congr
      intro y _
      by_cases hy : y = x
      · subst hy; simp [hp]
      · simp [hy]

theorem mem_firstOccurrences {α : Type} [DecidableEq α] (l : List α) (a : α) :
    a ∈ firstOccurrences l ↔ a ∈ l := by
  induction l with
  | nil => simp [firstOccurrences]
  | cons x rest ih =>
    by_cases ha : a = x
    · simp [firstOccurrences, ha]
    · simp [firstOccurrences, ha, ih]

theorem nodup_firstOccurrences {α : Type} [DecidableEq α] (l : List α) :
    (firstOccurrences l).Nodup := by
  induction l with
  | nil => simp [firstOccurrences]
  | cons x rest ih =>
    simp only [firstOccurrences, List.nodup_cons]
    exact ⟨by simp [List.mem_filter], ih.filter _⟩

/-- The fields of the entry after `AddRefs`, from any list of references held. -/
theorem AddRefs_eq (refs : List GoString) (t : Translation) :
    t.AddRefs refs =
      { t with
        Refs := t.Refs ++ firstOccurrences (refs.filter (fun x => decide (x ∉ t.Refs))),
        dirty := t.dirty || refs.any (fun x => decide (x ∉ t.Refs)) } := by
  induction refs generalizing t with
  | nil => simp [Translation.AddRefs, firstOccurrences]
  | cons r rest ih =>
    have hstep : t.AddRefs (r :: rest) =
        (if ¬ t.hasRef r then { t with dirty := true, Refs := t.Refs ++ [r] } else t).AddRefs rest := by
      simp [Translation.AddRefs]
    rw [hstep]
    by_cases hr : r ∈ t.Refs
    · have h1 : t.hasRef r = true := (hasRefLoop_iff r t.Refs).2 hr
      simp only [h1, not_true_eq_false, if_false]
      rw [ih t]
      simp [hr]
    · have h1 : ¬ (t.hasRef r = true) := fun h => hr ((hasRefLoop_iff r t.Refs).1 h)
      rw [if_pos h1, ih]
      have hf : (rest.filter (fun x => decide (x ∉ t.Refs ++ [r])))
          = (rest.filter (fun x => decide (x ∉ t.Refs))).filter (fun y => decide (y ≠ r)) := by
        rw [List.filter_filter]
        apply List.filter_congr
        intro y _
        simp [not_or, and_comm]
      simp only [hf, firstOccurrences_filter]
      simp [hr, firstOccurrences, firstOccurrences_filter]
      apply List.filter_congr
      intro y _
      exact Bool.and_comm _ _

/-- The references after `AddRefs` hold no duplicates when they held none before. -/
theorem AddRefs_Refs_nodup (t : Translation) (refs : List GoString) (h : t.Refs.Nodup) :
    (t.AddRefs refs).Refs.Nodup := by
  rw [AddRefs_eq]
  simp only
  rw [List.nodup_append]
  refine ⟨h, nodup_firstOccurrences _, ?_⟩
  intro a ha hb
  rw [mem_firstOccurrences, List.mem_filter] at hb
  simp at hb
  exact hb.2 ha

/-- A dirty entry is dirty after `AddRefs`. -/
theorem AddRefs_keeps_dirty (t : Translation) (refs : List GoString) (h : t.dirty = true) :
    (t.AddRefs refs).dirty = true := by
  rw [AddRefs_eq]
  simp [h]

/-- C4: from references without duplicates, `AddRefs refs` leaves the old references
followed by the elements of `refs` that were not among them, each once, in the order of
their first occurrence; the result has no duplicates, holds exactly the old and the added
references, and two calls give the union of both lists in first-seen order. -/
theorem AddRefs_union (t : Translation) (refs : List GoString) (h : t.Refs.Nodup) :
    (t.AddRefs refs).Refs =
      t.Refs ++ firstOccurrences (refs.filter (fun x => decide (x ∉ t.Refs))) ∧
    (t.AddRefs refs).Refs.Nodup ∧
    (∀ x, x ∈ (t.AddRefs refs).Refs ↔ x ∈ t.Refs ∨ x ∈ refs) ∧
    (∀ more, ((t.AddRefs refs).AddRefs more).Refs =
      t.Refs ++ firstOccurrences ((refs ++ more).filter (fun x => decide (x ∉ t.Refs)))) := by
  refine ⟨by rw [AddRefs_eq], ?_, ?_, ?_⟩
  · rw [AddRefs_eq]
    simp only
    rw [List.nodup_append]
    refine ⟨h, nodup_firstOccurrences _, ?_⟩
    intro a ha hb
    rw [mem_firstOccurrences, List.mem_filter] at hb
    simp at hb
    exact hb.2 ha
  · intro x
    rw [AddRefs_eq]
    simp only [List.mem_append, mem_firstOccurrences, List.mem_filter]
    by_cases hx : x ∈ t.Refs <;> simp [hx]
  · intro more
    have hfold : (t.AddRefs refs).AddRefs more = t.AddRefs (refs ++ more) := by
      simp [Translation.AddRefs, List.foldl_append]
    rw [hfold, AddRefs_eq]

/-- C4 on an entry holding `a.go:1`: adding `b.go:2, a.go:1, b.go:2` and then
`c.go:3, b.go:2` gives `a.go:1, b.go:2, c.go:3`. -/
theorem AddRefs_union_witness :
    (({ appleEntry with Refs := [bytes "a.go:1"] } : Translation).AddRefs
        [bytes "b.go:2", bytes "a.go:1", bytes "b.go:2"]).Refs
      = [bytes "a.go:1", bytes "b.go:2"] ∧
    ((({ appleEntry with Refs := [bytes "a.go:1"] } : Translation).AddRefs
        [bytes "b.go:2", bytes "a.go:1", bytes "b.go:2"]).AddRefs
        [bytes "c.go:3", bytes "b.go:2"]).Refs
      = [bytes "a.go:1", bytes "b.go:2", bytes "c.go:3"] :=
  have h := AddRefs_union { appleEntry with Refs := [bytes "a.go:1"] }
    [bytes "b.go:2", bytes "a.go:1", bytes "b.go:2"] (by decide)
  ⟨h.1.trans (by decide), (h.2.2.2 [bytes "c.go:3", bytes "b.go:2"]).trans (by decide)⟩

/-- C5: after `AddRefs refs` the entry is dirty exactly when it was dirty or some element
of `refs` was not among its references, and only `Refs` and `dirty` can differ; when
every element of `refs` is among the references already, the entry is unchanged. -/
theorem AddRefs_dirty (t : Translation) (refs : List GoString) :
    ((t.AddRefs refs).dirty = true ↔ (t.dirty = true ∨ ∃ x ∈ refs, x ∉ t.Refs)) ∧
    t.AddRefs refs = { t with Refs := (t.AddRefs refs).Refs, dirty := (t.AddRefs refs).dirty } ∧
    ((∀ x ∈ refs, x ∈ t.Refs) → t.AddRefs refs = t) := by
  refine ⟨?_, ?_, ?_⟩
  · rw [AddRefs_eq]
    simp
  · rw [AddRefs_eq]
  · intro hall
    rw [AddRefs_eq]
    have h1 : refs.filter (fun x => decide (x ∉ t.Refs)) = [] := by
      rw [List.filter_eq_nil_iff]
      intro a ha
      simp [hall a ha]
    have h2 : refs.any (fun x => decide (x ∉ t.Refs)) = false := by
      rw [List.any_eq_false]
      intro a ha
      simp [hall a ha]
    simp only [h1, h2, firstOccurrences, List.append_nil, Bool.or_false]

/-- C5 on an entry that holds `a.go:1` and is not dirty: adding `a.go:1` again changes
nothing. -/
theorem AddRefs_dirty_witness :
    ({ appleEntry with Refs := [bytes "a.go:1"] } : Translation).AddRefs [bytes "a.go:1"]
      = { appleEntry with Refs := [bytes "a.go:1"] } :=
  (AddRefs_dirty { appleEntry with Refs := [bytes "a.go:1"] } [bytes "a.go:1"]).2.2 (by decide)

/-! ## The line cursor -/

theorem readLine_of_drop (lines : List GoString) (n : Nat) (x : GoString) (tl : List GoString)
    (h : lines.drop n = x :: tl) :
    lineReader.readLine ⟨lines, n⟩ = .ok (x, n, none, ⟨lines, (n : Int) + 1⟩) := by
  have hlen : n < lines.length := by
    by_contra hc
    rw [List.drop_of_length_le (by omega)] at h
    cases h
  have hget : lines[n]? = some x := by
    have := congrArg (fun l => l[0]?) h
    simpa using this
  have h1 : ¬ ((n : Int) ≥ (lines.length : Int)) := by omega
  simp [lineReader.readLine, lineReader.lineAt, h1, hget]

theorem readLine_eof (lines : List GoString) (n : Int) (h : (lines.length : Int) ≤ n) :
    lineReader.readLine ⟨lines, n⟩ = .ok ([], 0, some .EOF, ⟨lines, n⟩) := by
  simp [lineReader.readLine, h]

theorem unreadLine_succ (lines : List GoString) (n : Nat) :
    lineReader.unreadLine ⟨lines, (n : Int) + 1⟩ = ⟨lines, n⟩ := by
  have h : (n : Int) + 1 ≥ 0 := by omega
  simp [lineReader.unreadLine, h]

/-- The loop of `readString` over quoted string lines `qs` followed by a line `stop`
that is not one. -/
theorem readStringLoop_quoted (pfx : GoString) (lines : List GoString) (stop : GoString)
    (rest : List GoString) (qs : List GoString) :
    ∀ (fuel n : Nat) (msg : GoString),
      lines.drop n = qs ++ stop :: rest →
      (∀ q ∈ qs, reStringLine.MatchString (cutLine pfx q) = true) →
      reStringLine.MatchString (cutLine pfx stop) = false →
      qs.length + 1 ≤ fuel →
      readStringLoop pfx fuel ⟨lines, n⟩ msg =
        .ok (msg ++ (qs.map (fun q => (Unquote (cutLine pfx q)).1)).flatten, none,
             ⟨lines, (n : Int) + qs.length⟩) := by
  induction qs with
  | nil =>
    intro fuel n msg hdrop _ hstop hfuel
    obtain ⟨f, rfl⟩ : ∃ f, fuel = f + 1 := ⟨fuel - 1, by simp at hfuel; omega⟩
    have hrl := readLine_of_drop lines n stop rest (by simpa using hdrop)
    have hstop1 : reStringLine.MatchString (if pfx.length > 0 then CutPrefix stop pfx else stop)
        = false := hstop
    simp [readStringLoop, hrl, hstop1, unreadLine_succ]
  | cons q qs ih =>
    intro fuel n msg hdrop hqs hstop hfuel
    obtain ⟨f, rfl⟩ : ∃ f, fuel = f + 1 := ⟨fuel - 1, by simp at hfuel; omega⟩
    have hrl := readLine_of_drop lines n q (qs ++ stop :: rest) (by simpa using hdrop)
    have hq : reStringLine.MatchString (if pfx.length > 0 then CutPrefix q pfx else q) = true :=
      hqs q (List.mem_cons_self _ _)
    have hdrop1 : lines.drop (n + 1) = qs ++ stop :: rest := by
      have := congrArg (List.drop 1) hdrop
      simpa [List.drop_drop, Nat.add_comm] using this
    have hnext := ih f (n + 1) (msg ++ (Unquote (cutLine pfx q)).1) hdrop1
      (fun x hx => hqs x (List.mem_cons_of_mem _ hx)) hstop (by simp at hfuel; omega)
    simp only [readStringLoop, hrl, hq]
    simp only [Nat.cast_add, Nat.cast_one] at hnext
    simp only [cutLine] at hnext
    simp [hnext, cutLine, List.append_assoc, add_assoc, add_comm]
    omega

/-- C3: when `head` is a validly quoted string and the lines at the cursor are the
quoted string lines `qs` followed by a line `stop` that is not a quoted string line,
`readString head` returns without error the unquoted `head` followed by the unquoted
contents of `qs` in order, and the cursor is left on `stop`. -/
theorem readString_concat (r : lineReader) (head u stop : GoString) (qs rest : List GoString)
    (hpos : 0 ≤ r.linenum)
    (hhead : reStringLine.MatchString head = true)
    (hu : Unquote head = (u, none))
    (hlines : r.lines.drop r.linenum.toNat = qs ++ stop :: rest)
    (hqs : ∀ q ∈ qs, reStringLine.MatchString q = true ∧ (Unquote q).2 = none)
    (hstop : reStringLine.MatchString stop = false) :
    r.readString head [] =
      .ok (u ++ (qs.map (fun q => (Unquote q).1)).flatten, none,
           { r with linenum := r.linenum + qs.length }) := by
  obtain ⟨lines, ln⟩ := r
  obtain ⟨n, rfl⟩ : ∃ n : Nat, ln = n := ⟨ln.toNat, (Int.toNat_of_nonneg hpos).symm⟩
  simp only [Int.toNat_ofNat] at hlines
  have hlen : qs.length + 1 ≤ lines.length + 1 := by
    have := congrArg List.length hlines
    simp at this
    omega
  have hloop := readStringLoop_quoted [] lines stop rest qs (lines.length + 1) n u hlines
    (fun q hq => by simpa [cutLine] using (hqs q hq).1) (by simpa [cutLine] using hstop) hlen
  simp only [cutLine, List.length_nil, gt_iff_lt, lt_self_iff_false, if_false] at hloop
  simp [lineReader.readString, hhead, hu, hloop]

/-- C3 on the head `""` followed by the lines `"hello\n"` and `"hi"` and then a
`msgid` line: the result is `hello`, a line feed, `hi`, and the cursor is on the
`msgid` line. -/
theorem readString_concat_witness :
    helloReader.readString (bytes "\"\"") [] =
      .ok (bytes "hello\nhi", none, { helloReader with linenum := 2 }) :=
  (readString_concat helloReader (bytes "\"\"") [] (bytes "msgid \"x\"")
    [bytes "\"hello\\n\"", bytes "\"hi\""] [] (by decide) (by decide) (by decide) (by decide)
    (by decide) (by decide)).trans (by decide)

/-- The loop of `readString` returns when the counter covers the lines left: it neither
panics nor runs out, the lines are kept and the cursor does not move back. -/
theorem readStringLoop_returns (pfx : GoString) (lines : List GoString) :
    ∀ (fuel n : Nat) (msg : GoString), 1 ≤ fuel → lines.length + 1 ≤ fuel + n →
      ∃ out err, ∃ k : Nat, n ≤ k ∧
        readStringLoop pfx fuel ⟨lines, n⟩ msg = .ok (out, err, ⟨lines, k⟩) := by
  intro fuel
  induction fuel with
  | zero => intro n msg h; omega
  | succ f ih =>
    intro n msg _ hfuel
    by_cases hn : n < lines.length
    · have hdrop : lines.drop n = lines[n] :: lines.drop (n + 1) := List.drop_eq_getElem_cons hn
      have hrl := readLine_of_drop lines n _ _ hdrop
      by_cases hm : reStringLine.MatchString
          (if pfx.length > 0 then CutPrefix lines[n] pfx else lines[n]) = true
      · obtain ⟨out, err, k, hk, hrun⟩ := ih (n + 1)
          (msg ++ (Unquote (if pfx.length > 0 then CutPrefix lines[n] pfx else lines[n])).1)
          (by omega) (by omega)
        refine ⟨out, err, k, by omega, ?_⟩
        simp only [readStringLoop, hrl, hm]
        simpa using hrun
      · refine ⟨msg, none, n, le_refl _, ?_⟩
        simp [readStringLoop, hrl, hm, unreadLine_succ]
    · refine ⟨msg, some .EOF, n, le_refl _, ?_⟩
      have hrl := readLine_eof lines n (by omega)
      simp [readStringLoop, hrl]

/-- The method `readString` returns on every reader whose cursor is not negative: the
counter of its loop never runs out. -/
theorem readString_returns (lines : List GoString) (n : Nat) (head : GoString)
    (vars : List GoString) :
    ∃ out err, ∃ k : Nat, n ≤ k ∧
      lineReader.readString ⟨lines, n⟩ head vars = .ok (out, err, ⟨lines, k⟩) := by
  by_cases hm : reStringLine.MatchString head = true
  · cases hU : Unquote head with
    | mk msg e =>
      cases e with
      | some e =>
        exact ⟨msg, some e, n, le_refl _, by simp [lineReader.readString, hm, hU]⟩
      | none =>
        obtain ⟨out, err, k, hk, hrun⟩ := readStringLoop_returns
          (match vars with
            | v :: _ => if v ≠ [] then v else []
            | [] => []) lines (lines.length + 1) n msg (by omega) (by omega)
        exact ⟨out, err, k, hk, by simp only [lineReader.readString, hm, hU]; simpa using hrun⟩
  · exact ⟨[], none, n, le_refl _, by simp [lineReader.readString, hm]⟩

/-! ## The entry parser -/

/-- C6, the code at the failing input: a catalog that ends with a blank line has a last
block that is empty, and this block files a new empty entry under the id `""`, in place
of the header entry; without the blank line the header entry keeps its variant 0. -/
theorem Parse_blank_block_files_entry (parseHeaders : Domain → Domain) :
    reBlocks.Split headerCatalogBlank = [bytes "msgid \"\"\nmsgstr \"Language: zh_CN\\n\"", []] ∧
    Po.Parse parseHeaders 3 NewPo headerCatalogBlank = .ok (poOf (parseHeaders headerBlankDomain)) ∧
    headerBlankDomain.entry [] = some NewTranslation ∧
    Po.Parse parseHeaders 3 NewPo headerCatalog = .ok (poOf (parseHeaders headerDomain)) ∧
    headerDomain.entry [] = some headerEntry ∧
    headerEntry.Trs.get 0 = some (bytes "Language: zh_CN\n") := by
  have h1 : parseBlocks 3 NewDomain (reBlocks.Split headerCatalogBlank) = .ok headerBlankDomain := by
    decide
  have h2 : parseBlocks 3 NewDomain (reBlocks.Split headerCatalog) = .ok headerDomain := by
    decide
  have l1 : (reBlocks.Split headerCatalogBlank).length = 2 := by decide
  have l2 : (reBlocks.Split headerCatalog).length = 1 := by decide
  refine ⟨by decide, ?_, by decide, ?_, by decide, by decide⟩
  · simp only [Po.Parse, NewPo, h1, l1, poOf]
    rfl
  · simp only [Po.Parse, NewPo, h2, l2, poOf]
    rfl

/-- Against C7 as stated: on the line `msgid`, which holds no space, `parseString`
panics. -/
theorem parseString_no_space_counterexample :
    parseString NewDomain 0 NewTranslation ⟨[bytes "msgid", bytes "msgstr \"x\""], 0⟩ =
      .panic "syntax error" := by
  decide

theorem stringsIndex_bounds (l : GoString) (c : UInt8) :
    -1 ≤ stringsIndex l c ∧ stringsIndex l c < l.length := by
  induction l with
  | nil => simp [stringsIndex]
  | cons x rest ih =>
    obtain ⟨ih1, ih2⟩ := ih
    by_cases hx : x = c
    · simp [stringsIndex, hx]
      try omega
    · by_cases hneg : stringsIndex rest c < 0
      · simp [stringsIndex, hx, hneg]
        try omega
      · simp [stringsIndex, hx, hneg]
        try omega

theorem stringsSplitN2_of_space (l : GoString) (h : 0 ≤ stringsIndex l 0x20) :
    stringsSplitN2 l 0x20 = [keyOf l, l.drop ((stringsIndex l 0x20).toNat + 1)] := by
  have h1 : ¬ (stringsIndex l 0x20 < 0) := by omega
  simp [stringsSplitN2, keyOf, h1]

theorem stringsSplitN2_of_no_space (l : GoString) (h : stringsIndex l 0x20 < 0) :
    stringsSplitN2 l 0x20 = [l] := by
  simp [stringsSplitN2, h]

/-- C7, amended: with the cursor on a line `l`, `parseString` panics with
`syntax error` when `l` holds no space; when `l` holds a space, its key is none of
`msgctxt`, `msgid`, `msgid_plural`, `msgstr` and `l` does not start with `msgstr`
followed by a bracketed index that is taken, `parseString` reads that one line, leaves
the entry and the store unchanged and returns. -/
theorem parseString_unrecognised (d : Domain) (ptr : Nat) (tr : Translation)
    (lines : List GoString) (n : Nat) (l : GoString) (h : lines[n]? = some l) :
    (stringsIndex l 0x20 < 0 →
      parseString d ptr tr ⟨lines, n⟩ = .panic "syntax error") ∧
    (0 ≤ stringsIndex l 0x20 → keyOf l ∉ knownKeys → takesIndex l = false →
      parseString d ptr tr ⟨lines, n⟩ = .ok (d, tr, ⟨lines, (n : Int) + 1⟩)) := by
  have hdrop : lines.drop n = l :: lines.drop (n + 1) := by
    have hlt : n < lines.length := by
      by_contra hc
      rw [List.getElem?_eq_none (by omega)] at h
      cases h
    rw [List.getElem?_eq_getElem hlt] at h
    cases h
    exact List.drop_eq_getElem_cons hlt
  have hrl := readLine_of_drop lines n l _ hdrop
  constructor
  · intro hsp
    simp [parseString, hrl, stringsSplitN2_of_no_space l hsp]
  · intro hsp hkey htake
    simp only [knownKeys, List.mem_cons, List.mem_singleton, List.not_mem_nil, or_false,
      not_or] at hkey
    obtain ⟨k1, k2, k3, k4⟩ := hkey
    simp only [parseString, hrl, stringsSplitN2_of_space l hsp, k1, k2, k3, k4, if_false]
    by_cases hp : HasPrefix l (bytes "msgstr") = true
    · simp only [hp, if_true]
      by_cases hb : stringsIndex l 0x5B ≠ -1 ∧ stringsIndex l 0x5D ≠ -1
      · simp only [hb, ne_eq, not_false_eq_true, and_self, if_true]
        simp only [takesIndex, hp, hb.1, hb.2, ne_eq, not_false_eq_true, true_and,
          decide_eq_false_iff_not, not_or, not_le] at htake
        obtain ⟨hlt, hat⟩ := htake
        have hs := stringsIndex_bounds l 0x5B
        have he := stringsIndex_bounds l 0x5D
        have hs0 : 0 ≤ stringsIndex l 0x5B := by
          have := hb.1
          omega
        have hsl : slice l (stringsIndex l 0x5B + 1) (stringsIndex l 0x5D) =
            some ((l.take (stringsIndex l 0x5D).toNat).drop ((stringsIndex l 0x5B).toNat + 1)) := by
          have hc : 0 ≤ stringsIndex l 0x5B + 1 ∧ stringsIndex l 0x5B + 1 ≤ stringsIndex l 0x5D ∧
              stringsIndex l 0x5D ≤ (l.length : Int) := by omega
          have ht : (stringsIndex l 0x5B + 1).toNat = (stringsIndex l 0x5B).toNat + 1 := by omega
          simp only [slice, hc, and_self, if_true, ht]
        rw [hsl]
        cases hA : Atoi ((l.take (stringsIndex l 0x5D).toNat).drop ((stringsIndex l 0x5B).toNat + 1)) with
        | mk i e =>
          cases e with
          | none => rw [hA] at hat; exact absurd rfl hat
          | some e => simp only [hA]
      · simp only [hb, if_false]
    · simp [hp]

/-- The amended C7 on the lines `msgid` and `hello "x"`, with an entry whose id is
`apple`: the first panics, the second is skipped. -/
theorem parseString_unrecognised_witness :
    parseString NewDomain 0 appleEntry ⟨[bytes "msgid"], (0 : Nat)⟩ = .panic "syntax error" ∧
    parseString NewDomain 0 appleEntry ⟨[bytes "hello \"x\"", bytes "msgstr \"y\""], (0 : Nat)⟩ =
      .ok (NewDomain, appleEntry, ⟨[bytes "hello \"x\"", bytes "msgstr \"y\""], ((0 : Nat) : Int) + 1⟩) :=
  ⟨(parseString_unrecognised NewDomain 0 appleEntry [bytes "msgid"] 0 (bytes "msgid")
      (by decide)).1 (by decide),
   (parseString_unrecognised NewDomain 0 appleEntry [bytes "hello \"x\"", bytes "msgstr \"y\""] 0
      (bytes "hello \"x\"") (by decide)).2 (by decide) (by decide) (by decide)⟩

/-- The method `readPrevMsg` returns on a reader whose cursor is not negative. -/
theorem readPrevMsg_returns (t : Translation) (lines : List GoString) (n : Nat) (l : GoString) :
    ∃ t1, ∃ k : Nat, n ≤ k ∧ t.readPrevMsg ⟨lines, n⟩ l = .ok (t1, ⟨lines, k⟩) := by
  unfold Translation.readPrevMsg
  by_cases h1 : l.length < 2 ∨ l.take 2 ≠ [0x23, 0x7C]
  · exact ⟨t, n, le_refl _, by rw [if_pos h1]⟩
  · rw [if_neg h1]
    by_cases h2 : HasPrefix (TrimSpace (l.drop 2)) (bytes "msgid") = true
    · obtain ⟨out, err, k, hk, hrun⟩ := readString_returns lines n
        (CutPrefix (TrimSpace (l.drop 2)) (bytes "msgid")) [[0x23, 0x7C]]
      exact ⟨{ t with PrevMsgId := out }, k, hk, by simp [h2, hrun]⟩
    · by_cases h3 : HasPrefix (TrimSpace (l.drop 2)) (bytes "msgctxt") = true
      · obtain ⟨out, err, k, hk, hrun⟩ := readString_returns lines n
          (CutPrefix (TrimSpace (l.drop 2)) (bytes "msgctxt")) [[0x23, 0x7C]]
        exact ⟨{ t with PrevMsgContext := out }, k, hk, by simp [h2, h3, hrun]⟩
      · exact ⟨t, n, le_refl _, by simp [h2, h3]⟩

/-- On a line of two bytes or more, `parseComment` reads the line and returns: the
index 1 is in range. -/
theorem parseComment_returns (tr : Translation) (lines : List GoString) (n : Nat) (l : GoString)
    (h : lines[n]? = some l) (h2 : 2 ≤ l.length) :
    ∃ tr1, ∃ k : Nat, n < k ∧ parseComment tr ⟨lines, n⟩ = .ok (tr1, ⟨lines, k⟩) := by
  have hdrop : lines.drop n = l :: lines.drop (n + 1) := by
    have hlt : n < lines.length := by
      by_contra hc
      rw [List.getElem?_eq_none (by omega)] at h
      cases h
    rw [List.getElem?_eq_getElem hlt] at h
    cases h
    exact List.drop_eq_getElem_cons hlt
  have hrl := readLine_of_drop lines n l _ hdrop
  have hc : l[1]? = some l[1] := List.getElem?_eq_getElem (by omega)
  have hs2 : sliceFrom l 2 = some (l.drop 2) := by simp [sliceFrom, h2]
  have hs1 : sliceFrom l 1 = some (l.drop 1) := by
    have : 1 ≤ l.length := by omega
    simp [sliceFrom, this]
  have hcast : ((n : Int) + 1) = ((n + 1 : Nat) : Int) := by push_cast; rfl
  simp only [parseComment, hrl, hc, hs2, hs1]
  by_cases c1 : l[1] = 0x20
  · exact ⟨tr.readTranslatorComment (TrimSpace (l.drop 2)), n + 1, by omega, by simp [c1]⟩
  · by_cases c2 : l[1] = 0x2E
    · exact ⟨tr.readExtractedComment (TrimSpace (l.drop 2)), n + 1, by omega, by simp [c1, c2]⟩
    · by_cases c3 : l[1] = 0x3A
      · exact ⟨tr.readReferenceComment l, n + 1, by omega, by simp [c1, c2, c3]⟩
      · by_cases c4 : l[1] = 0x2C
        · exact ⟨tr.readFlagsComment l, n + 1, by omega, by simp [c1, c2, c3, c4]⟩
        · by_cases c5 : l[1] = 0x7C
          · obtain ⟨t1, k, hk, hrun⟩ := readPrevMsg_returns tr lines (n + 1) l
            rw [← hcast] at hrun
            exact ⟨t1, k, by omega, by simp [c1, c2, c3, c4, c5, hrun]⟩
          · exact ⟨tr.readTranslatorComment (TrimSpace (l.drop 1)), n + 1, by omega,
              by simp [c1, c2, c3, c4, c5]⟩

/-- C8, the code at the failing input: on the line `#`, which holds one byte,
`parseComment` panics on the index 1, and so does `Parse` on a catalog made of this
line, whatever the fuel. -/
theorem parseComment_bare_hash_panics (parseHeaders : Domain → Domain) (fuel : Nat) :
    parseComment NewTranslation ⟨[bytes "#"], 0⟩ = .panic "index out of range" ∧
    Po.Parse parseHeaders (fuel + 1) NewPo (bytes "#") = .panic "index out of range" := by
  refine ⟨by decide, ?_⟩
  have hb : parseBlocks (fuel + 1) NewDomain (reBlocks.Split (bytes "#")) =
      .panic "index out of range" := rfl
  have hl : (reBlocks.Split (bytes "#")).length = 1 := by decide
  simp only [Po.Parse, NewPo, hb, hl]
  rfl

/-- C9, the code at the failing inputs: a valid `msgctxt "c"` line that is the last
line of its block leaves `hasCtx` false, so that `Parse` files the entry under its plain
id and not under its context; and the line `msgctxt foo`, whose value is not a quoted
string, sets `hasCtx` to true with the empty context, so that `Parse` files the entry
under the context `""`. -/
theorem parseString_msgctxt_hasCtx :
    parseString NewDomain 0 appleEntry ⟨[bytes "msgid \"apple\"", bytes "msgctxt \"c\""], 1⟩ =
      .ok (NewDomain, { appleEntry with Ctx := bytes "c", hasCtx := false },
           ⟨[bytes "msgid \"apple\"", bytes "msgctxt \"c\""], 2⟩) ∧
    parseBlocks 3 NewDomain (reBlocks.Split ctxLastCatalog) = .ok ctxLastDomain ∧
    ctxLastDomain.entryC (bytes "c") (bytes "apple") = none ∧
    ctxLastDomain.entry (bytes "apple") = some { appleEntry with Ctx := bytes "c", hasCtx := false } ∧
    parseString NewDomain 0 appleEntry ⟨[bytes "msgctxt foo", bytes "msgid \"apple\""], 0⟩ =
      .ok (NewDomain, { appleEntry with Ctx := [], hasCtx := true },
           ⟨[bytes "msgctxt foo", bytes "msgid \"apple\""], 1⟩) ∧
    parseBlocks 3 NewDomain (reBlocks.Split ctxBareCatalog) = .ok ctxBareDomain ∧
    ctxBareDomain.entryC [] (bytes "apple") = some { appleEntry with Ctx := [], hasCtx := true } := by
  decide

/-- The run of `readString` on a head that is not a quoted string line. -/
theorem readString_not_quoted (r : lineReader) (head : GoString) (vars : List GoString)
    (h : reStringLine.MatchString head = false) :
    r.readString head vars = .ok ([], none, r) := by
  simp [lineReader.readString, h]

/-- The run of `readString` on a head that fails to unquote. -/
theorem readString_bad_escape (r : lineReader) (head : GoString) (vars : List GoString)
    (h : reStringLine.MatchString head = true) (e : GoError) (hu : (Unquote head).2 = some e) :
    r.readString head vars = .ok ((Unquote head).1, some e, r) := by
  cases hU : Unquote head with
  | mk msg err =>
    rw [hU] at hu
    simp only at hu
    subst hu
    simp [lineReader.readString, h, hU]

/-- C10, the code at the failing input: the head `foo` is not a quoted string line, and
`readString` returns the empty string with a nil error; no line is read. On the head
`"a\q"`, with an invalid escape, the error is not nil. -/
theorem readString_unquoted_head_nil_error :
    reStringLine.MatchString (bytes "foo") = false ∧
    helloReader.readString (bytes "foo") [] = .ok ([], none, helloReader) ∧
    helloReader.readString (bytes "\"a\\q\"") [] = .ok ([], some .ErrSyntax, helloReader) := by
  decide

/-! ## Plural expressions -/

/-- The value of `Eval` is the value at the end of the selected path, or -1. -/
theorem Eval_eq_pathEnd : ∀ (t : Expression) (n : Nat), t.Eval n = (t.pathEnd n).getD (-1)
  | .constValue _, _ => rfl
  | .ternary test a b, n => by
    unfold Expression.Eval Expression.pathEnd
    by_cases ht : test n = true
    · simp only [ht, if_true]
      cases a with
      | none => rfl
      | some e => exact Eval_eq_pathEnd e n
    · simp only [ht, if_false]
      cases b with
      | none => rfl
      | some e => exact Eval_eq_pathEnd e n

/-- The end of the selected path is one of the leaves. -/
theorem pathEnd_mem_leafValues : ∀ (t : Expression) (n : Nat) (v : Int),
    t.pathEnd n = some v → v ∈ t.leafValues
  | .constValue _, _, v => by
    intro h
    simp only [Expression.pathEnd, Option.some.injEq] at h
    simp [Expression.leafValues, h]
  | .ternary test a b, n, v => by
    intro h
    unfold Expression.pathEnd at h
    unfold Expression.leafValues
    by_cases ht : test n = true
    · simp only [ht, if_true] at h
      cases a with
      | none => cases h
      | some e => exact List.mem_append_left _ (pathEnd_mem_leafValues e n v h)
    · simp only [ht, if_false] at h
      cases b with
      | none => cases h
      | some e => exact List.mem_append_right _ (pathEnd_mem_leafValues e n v h)

/-- In a tree without absent branch every path ends at a leaf. -/
theorem pathEnd_isSome_of_noAbsent : ∀ (t : Expression) (n : Nat),
    t.noAbsent → ∃ v, t.pathEnd n = some v
  | .constValue value, _ => fun _ => ⟨value, rfl⟩
  | .ternary test a b, n => by
    intro h
    unfold Expression.noAbsent at h
    unfold Expression.pathEnd
    by_cases ht : test n = true
    · simp only [ht, if_true]
      cases a with
      | none => exact absurd h.1 id
      | some e => exact pathEnd_isSome_of_noAbsent e n h.1
    · simp only [ht, if_false]
      cases b with
      | none => exact absurd h.2 id
      | some e => exact pathEnd_isSome_of_noAbsent e n h.2

/-- Against C15 as stated: the test of `nestedAbsentExpr` holds for 0 and its true branch
is present, and yet `Eval 0` is -1, because the branch selected below is absent. -/
theorem Eval_sentinel_counterexample :
    nestedAbsentExpr = .ternary testAlways (some absentExpr) none ∧
    testAlways 0 = true ∧
    (some absentExpr : Option Expression) ≠ none ∧
    nestedAbsentExpr.Eval 0 = -1 := by
  refine ⟨rfl, rfl, by simp, by decide⟩

/-- C15, amended: `Eval` of a constant leaf is its value; `Eval` of a `ternary` is -1
when the branch its test selects is absent and the `Eval` of that branch otherwise; so
`Eval` is the value of the leaf at the end of the path that `n` selects, or -1 when the
path ends at an absent branch, and in a tree whose leaves are not negative `Eval` is -1
exactly when the path ends at an absent branch. -/
theorem Eval_spec (t : Expression) (n : Nat) :
    (∀ v, t = .constValue v → t.Eval n = v) ∧
    (∀ test a b, t = .ternary test a b →
      ((if test n then a else b) = none → t.Eval n = -1) ∧
      (∀ e, (if test n then a else b) = some e → t.Eval n = e.Eval n)) ∧
    t.Eval n = (t.pathEnd n).getD (-1) ∧
    ((∀ v ∈ t.leafValues, 0 ≤ v) → (t.Eval n = -1 ↔ t.pathEnd n = none)) := by
  refine ⟨?_, ?_, Eval_eq_pathEnd t n, ?_⟩
  · rintro v rfl
    rfl
  · rintro test a b rfl
    by_cases ht : test n = true
    · cases a with
      | none =>
        rw [Expression.Eval.eq_def]
        simp [ht]
      | some e =>
        rw [Expression.Eval.eq_def]
        simp [ht]
    · cases b with
      | none =>
        rw [Expression.Eval.eq_def]
        simp [ht]
      | some e =>
        rw [Expression.Eval.eq_def]
        simp [ht]
  · intro hpos
    rw [Eval_eq_pathEnd]
    cases hp : t.pathEnd n with
    | none => simp
    | some v =>
      have := hpos v (pathEnd_mem_leafValues t n v hp)
      simp only [Option.getD_some, reduceCtorEq, iff_false]
      omega

/-- The amended C15 on the rule `n != 1` at 1 and at 2, and on `nestedAbsentExpr`. -/
theorem Eval_spec_witness :
    notOneExpr.Eval 1 = 0 ∧ notOneExpr.Eval 2 = 1 ∧
    (nestedAbsentExpr.Eval 0 = -1 ↔ nestedAbsentExpr.pathEnd 0 = none) :=
  ⟨((Eval_spec notOneExpr 1).2.1 testNotOne (some (.constValue 1)) (some (.constValue 0)) rfl).2
      (.constValue 0) rfl,
   ((Eval_spec notOneExpr 2).2.1 testNotOne (some (.constValue 1)) (some (.constValue 0)) rfl).2
      (.constValue 1) rfl,
   (Eval_spec nestedAbsentExpr 0).2.2.2 (by simp [nestedAbsentExpr, absentExpr, Expression.leafValues])⟩

/-- C20: `Eval` is -1 or the value of a constant leaf of the tree; in a tree with no
absent branch whose leaves all lie in [0, K), `Eval` lies in [0, K). -/
theorem Eval_in_tree (t : Expression) (n : Nat) :
    (t.Eval n = -1 ∨ t.Eval n ∈ t.leafValues) ∧
    (∀ K : Int, t.noAbsent → (∀ v ∈ t.leafValues, 0 ≤ v ∧ v < K) →
      0 ≤ t.Eval n ∧ t.Eval n < K) := by
  constructor
  · rw [Eval_eq_pathEnd]
    cases hp : t.pathEnd n with
    | none => exact Or.inl rfl
    | some v => exact Or.inr (pathEnd_mem_leafValues t n v hp)
  · intro K hno hK
    obtain ⟨v, hv⟩ := pathEnd_isSome_of_noAbsent t n hno
    rw [Eval_eq_pathEnd, hv]
    exact hK v (pathEnd_mem_leafValues t n v hv)

/-- C20 on the rule `n != 1` with K = 2, at `n = 5`. -/
theorem Eval_in_tree_witness : 0 ≤ notOneExpr.Eval 5 ∧ notOneExpr.Eval 5 < 2 :=
  (Eval_in_tree notOneExpr 5).2 2
    (by simp [notOneExpr, Expression.noAbsent])
    (by simp [notOneExpr, Expression.leafValues])

/-! ## The cursor below zero -/

/-- At a cursor of one or more, `unreadLine` moves the cursor back by one. -/
theorem unreadLine_pos (lines : List GoString) (c : Int) (h : 1 ≤ c) :
    lineReader.unreadLine ⟨lines, c⟩ = ⟨lines, c - 1⟩ := by
  have h0 : c ≥ 0 := by omega
  simp [lineReader.unreadLine, h0]

/-- After a line is read, `unreadLine` restores the reader. -/
theorem readLine_unreadLine (lines : List GoString) (n : Nat) (l : GoString) (m : Int)
    (r1 : lineReader) (h : lineReader.readLine ⟨lines, n⟩ = .ok (l, m, none, r1)) :
    r1.unreadLine = ⟨lines, n⟩ := by
  unfold lineReader.readLine at h
  split at h
  · cases h
  · split at h
    · simp only [Run.ok.injEq, Prod.mk.injEq, true_and] at h
      obtain ⟨-, -, rfl⟩ := h
      exact unreadLine_succ lines n
    · cases h
    · cases h

/-- The test of `unreadLine` is `linenum >= 0`: at the cursor 0 it moves the cursor to -1,
where a `readLine` would panic on the index. -/
theorem unreadLine_zero_goes_negative (lines : List GoString) :
    lineReader.unreadLine ⟨lines, 0⟩ = ⟨lines, -1⟩ ∧
    (lineReader.unreadLine ⟨lines, 0⟩).readLine = .panic "index out of range" := by
  have h : lineReader.unreadLine ⟨lines, 0⟩ = ⟨lines, -1⟩ := by
    simp [lineReader.unreadLine]
  refine ⟨h, ?_⟩
  rw [h]
  have h1 : ¬ ((-1 : Int) ≥ (lines.length : Int)) := by omega
  simp [lineReader.readLine, lineReader.lineAt, h1]

/-! ## The empty input -/

/-- C12, the code at the failing input: on the empty input `Split` returns one empty
block, so `Parse` does not panic: it returns, with a new empty entry filed under the
id `""`, whatever the fuel. -/
theorem Parse_empty_input_returns (parseHeaders : Domain → Domain) (fuel : Nat) :
    reBlocks.Split [] = [[]] ∧
    Po.Parse parseHeaders fuel NewPo [] = .ok (poOf (parseHeaders emptyInputDomain)) ∧
    emptyInputDomain.entry [] = some NewTranslation := by
  have hb : parseBlocks fuel NewDomain (reBlocks.Split []) = .ok emptyInputDomain := rfl
  have hl : (reBlocks.Split []).length = 1 := by decide
  refine ⟨by decide, ?_, by decide⟩
  simp only [Po.Parse, NewPo, hb, hl, poOf]
  rfl

/-! ## Previous values -/

/-- A string that starts with a space is not a Go string literal. -/
theorem Unquote_leading_space (s : GoString) : Unquote (0x20 :: s) = ([], some .ErrSyntax) := by
  cases s with
  | nil => rfl
  | cons c rest =>
    simp only [Unquote]
    split_ifs <;> first | rfl | simp_all

/-- The method `readString` on a head that starts with a space: the string is empty and
no line is read. -/
theorem readString_leading_space (r : lineReader) (s : GoString) (vars : List GoString) :
    ∃ err, r.readString (0x20 :: s) vars = .ok ([], err, r) := by
  by_cases hm : reStringLine.MatchString (0x20 :: s) = true
  · exact ⟨some .ErrSyntax, by simp [lineReader.readString, hm, Unquote_leading_space]⟩
  · exact ⟨none, by simp [lineReader.readString, hm]⟩

/-- C14, the code at the failing input: on the line `#| msgid "a"` followed by the
continuation `#| "b"`, `readPrevMsg` leaves `PrevMsgId` empty and reads no line, and so
does `parseComment` past the line itself; with no space before the value, `PrevMsgId` is
`a` only: the continuation is read and adds nothing. -/
theorem readPrevMsg_loses_value :
    NewTranslation.readPrevMsg ⟨prevMsgLines, 1⟩ (bytes "#| msgid \"a\"") =
      .ok (NewTranslation, ⟨prevMsgLines, 1⟩) ∧
    parseComment NewTranslation ⟨prevMsgLines, 0⟩ = .ok (NewTranslation, ⟨prevMsgLines, 1⟩) ∧
    NewTranslation.readPrevMsg ⟨prevMsgTightLines, 1⟩ (bytes "#| msgid\"a\"") =
      .ok ({ NewTranslation with PrevMsgId := bytes "a" }, ⟨prevMsgTightLines, 2⟩) := by
  decide

/-! ## The index of `msgstr` -/

/-- C11, the code at the failing input: on the line `msgstr][ "v"`, where the closing
bracket comes before the opening one, `parseString` panics on the slice. -/
theorem parseString_brackets_reversed_panics :
    parseString NewDomain 0 appleEntry ⟨[bytes "msgstr][ \"v\""], 0⟩ =
      .panic "slice bounds out of range" := by
  decide

/-! ## A loop that does not end -/

/-- On a line that is not blank for `reBlankLine` and is empty once trimmed, the loop
over the lines of a block makes no step: it runs out of any fuel. -/
theorem parseLines_stuck (lines : List GoString) (n : Nat) (l : GoString)
    (hl : lines[n]? = some l) (hb : reBlankLine.MatchString l = false) (ht : TrimSpace l = [])
    (d : Domain) (ptr : Nat) (tr : Translation) :
    ∀ fuel, parseLines fuel d ptr tr ⟨lines, n⟩ = .timeout := by
  have hlt : n < lines.length := by
    by_contra hc
    rw [List.getElem?_eq_none (by omega)] at hl
    cases hl
  have hcur : lineReader.currentLine ⟨lines, n⟩ = .ok (l, n, none) := by
    have h1 : ¬ ((n : Int) ≥ (lines.length : Int)) := by omega
    simp [lineReader.currentLine, lineReader.lineAt, h1, hl]
  intro fuel
  induction fuel with
  | zero => rfl
  | succ f ih => simp [parseLines, hcur, hb, ht, ih]

/-- C18, the code at the failing input: after a `msgid` line, a line that holds a
vertical tab only, or the space U+3000 only, is not blank for `reBlankLine` and is empty
once trimmed; the loop over the lines of the block does not move on, and `Parse` runs
out of every fuel. -/
theorem Parse_never_ends (parseHeaders : Domain → Domain) (fuel : Nat) :
    Po.Parse parseHeaders fuel NewPo verticalTabCatalog = .timeout ∧
    Po.Parse parseHeaders fuel NewPo wideSpaceCatalog = .timeout := by
  have key : ∀ (l : GoString), reBlankLine.MatchString l = false → TrimSpace l = [] →
      parseString { NewDomain with heap := [NewTranslation] } 0 NewTranslation
          ⟨[bytes "msgid \"a\"", l], 0⟩ =
        .ok ({ NewDomain with heap := [NewTranslation] }, { NewTranslation with ID := bytes "a" },
             ⟨[bytes "msgid \"a\"", l], 1⟩) →
      parseLines fuel { NewDomain with heap := [NewTranslation] } 0 NewTranslation
        ⟨[bytes "msgid \"a\"", l], 0⟩ = .timeout := by
    intro l hb ht hps
    cases fuel with
    | zero => rfl
    | succ f =>
      have hstuck := parseLines_stuck [bytes "msgid \"a\"", l] 1 l rfl hb ht
        { NewDomain with heap := [NewTranslation] } 0 { NewTranslation with ID := bytes "a" } f
      have hcur : lineReader.currentLine ⟨[bytes "msgid \"a\"", l], 0⟩ =
          .ok (bytes "msgid \"a\"", 0, none) := rfl
      have hnb : reBlankLine.MatchString (bytes "msgid \"a\"") = false := by decide
      have htrim : TrimSpace (bytes "msgid \"a\"") = 0x6D :: bytes "sgid \"a\"" := by decide
      have hc : ((0x6D : UInt8) = 0x23) = False := by decide
      simp only [parseLines, hcur, hnb, htrim, hc, if_false, hps]
      exact hstuck
  have run : ∀ (buf l : GoString), reBlocks.Split buf = [buf] →
      (newLineReader buf).skipBlankLine = .ok (none, ⟨[bytes "msgid \"a\"", l], 0⟩) →
      parseLines fuel { NewDomain with heap := [NewTranslation] } 0 NewTranslation
        ⟨[bytes "msgid \"a\"", l], 0⟩ = .timeout →
      Po.Parse parseHeaders fuel NewPo buf = .timeout := by
    intro buf l hs hskip hpl
    have hpb : parseBlock fuel NewDomain buf = .timeout := by
      simp only [parseBlock, hskip]
      exact (congrArg (fun x => match x with
        | Run.ok (d1, tr1, _) => Run.ok (fileEntry d1 0 tr1)
        | Run.panic m => Run.panic m
        | Run.timeout => Run.timeout) hpl)
    simp [Po.Parse, NewPo, hs, parseBlocks, hpb]
  constructor
  · exact run verticalTabCatalog [0x0B] (by decide) (by decide)
      (key [0x0B] (by decide) (by decide) (by decide))
  · exact run wideSpaceCatalog (bytes "　") (by decide) (by decide)
      (key (bytes "　") (by decide) (by decide) (by decide))

/-! ## `Split` never returns the empty list -/

theorem manyGreedy_ge (p : UInt8 → Bool) (k : GoString → Nat → Option Nat)
    (hk : ∀ s pos e, k s pos = some e → pos ≤ e) :
    ∀ (s : GoString) (pos e : Nat), manyGreedy p k s pos = some e → pos ≤ e := by
  intro s
  induction s with
  | nil =>
    intro pos e h
    exact hk [] pos e (by simpa [manyGreedy] using h)
  | cons c s ih =>
    intro pos e h
    simp only [manyGreedy] at h
    split at h
    · split at h
      · rename_i e1 he1
        cases h
        have := ih (pos + 1) _ he1
        omega
      · exact hk _ _ _ h
    · exact hk _ _ _ h

theorem matchAt_ge : ∀ (re : Regexp) (s : GoString) (pos e : Nat),
    matchAt re s pos = some e → pos ≤ e := by
  intro re
  induction re with
  | nil =>
    intro s pos e h
    simp only [matchAt, Option.some.injEq] at h
    omega
  | cons item re ih =>
    intro s pos e h
    cases item with
    | one p =>
      cases s with
      | nil => simp [matchAt] at h
      | cons c s =>
        simp only [matchAt] at h
        split at h
        · have := ih s (pos + 1) e h
          omega
        · cases h
    | many p =>
      simp only [matchAt] at h
      exact manyGreedy_ge p _ (fun s1 pos1 e1 h1 => ih s1 pos1 e1 h1) s pos e h
    | beginText =>
      simp only [matchAt] at h
      split at h
      · exact ih s pos e h
      · cases h
    | endText =>
      simp only [matchAt] at h
      split at h
      · exact ih s pos e h
      · cases h

theorem findAt_le (re : Regexp) : ∀ (s : GoString) (pos m0 m1 : Nat),
    findAt re s pos = some (m0, m1) → m0 ≤ m1 := by
  intro s
  induction s with
  | nil =>
    intro pos m0 m1 h
    simp only [findAt, Option.map_eq_some', Prod.mk.injEq] at h
    obtain ⟨e, he, rfl, rfl⟩ := h
    exact matchAt_ge re [] _ _ he
  | cons c s ih =>
    intro pos m0 m1 h
    simp only [findAt] at h
    split at h
    · rename_i e he
      simp only [Option.some.injEq, Prod.mk.injEq] at h
      obtain ⟨rfl, rfl⟩ := h
      exact matchAt_ge re _ _ _ he
    · exact ih _ _ _ h

theorem allMatches_le (re : Regexp) (s : GoString) (n : Nat) :
    ∀ (fuel pos i : Nat) (prev : Int), ∀ m ∈ allMatches re s n fuel pos i prev, m.1 ≤ m.2 := by
  intro fuel
  induction fuel with
  | zero => intro pos i prev m hm; simp [allMatches] at hm
  | succ f ih =>
    intro pos i prev m hm
    simp only [allMatches] at hm
    split at hm
    · split at hm
      · simp at hm
      · rename_i m0 m1 hf
        split at hm
        · rcases List.mem_cons.1 hm with rfl | hm
          · exact findAt_le re _ _ _ _ hf
          · exact ih _ _ _ m hm
        · exact ih _ _ _ m hm
    · simp at hm

/-- The method `Split` never returns the empty list, so that the test `len(blocks) == 0`
of `Parse` never holds. -/
theorem Split_ne_nil (re : Regexp) (s : GoString) : re.Split s ≠ [] := by
  unfold Regexp.Split
  by_cases h0 : s.length = 0
  · simp [h0]
  · simp only [h0, if_false]
    have inv : ∀ (found : List (Nat × Nat)) (st : List GoString × Nat × Nat),
        (∀ m ∈ found, m.1 ≤ m.2) → (st.2.2 ≠ 0 → st.1 ≠ []) →
        ((found.foldl
          (fun (st : List GoString × Nat × Nat) (m : Nat × Nat) =>
            (if m.2 ≠ 0 then st.1 ++ [(s.take m.1).drop st.2.1] else st.1, m.2, m.1)) st).2.2 ≠ 0 →
         (found.foldl
          (fun (st : List GoString × Nat × Nat) (m : Nat × Nat) =>
            (if m.2 ≠ 0 then st.1 ++ [(s.take m.1).drop st.2.1] else st.1, m.2, m.1)) st).1 ≠ []) := by
      intro found
      induction found with
      | nil => intro st _ hst; simpa using hst
      | cons m rest ih =>
        intro st hle hst
        simp only [List.foldl_cons]
        apply ih
        · intro x hx
          exact hle x (List.mem_cons_of_mem _ hx)
        · intro hm
          have := hle m (List.mem_cons_self _ _)
          have h2 : m.2 ≠ 0 := by
            simp only at hm
            omega
          simp [h2]
    have hinv := inv (allMatches re s (s.length + 1) (s.length + 2) 0 0 (-1)) ([], 0, 0)
      (allMatches_le re s _ _ _ _ _) (by simp)
    split
    · simp
    · rename_i heq
      simp only [ne_eq, not_not] at heq
      exact hinv (by rw [heq]; exact h0)

/-! ## More on the index of `msgstr` and on previous values -/

theorem GoMap_get_set_self {κ ν : Type} [DecidableEq κ] (m : GoMap κ ν) (k : κ) (v : ν) :
    (GoMap.set m k v).get k = some v := by
  induction m with
  | nil => simp [GoMap.set, GoMap.get]
  | cons x rest ih =>
    obtain ⟨k1, v1⟩ := x
    by_cases h : k1 = k
    · simp [GoMap.set, GoMap.get, h]
    · simp [GoMap.set, GoMap.get, h, ih]

theorem GoMap_get_set_other {κ ν : Type} [DecidableEq κ] (m : GoMap κ ν) (k j : κ) (v : ν)
    (hj : j ≠ k) : (GoMap.set m k v).get j = GoMap.get m j := by
  induction m with
  | nil => simp [GoMap.set, GoMap.get, Ne.symm hj]
  | cons x rest ih =>
    obtain ⟨k1, v1⟩ := x
    by_cases h : k1 = k
    · subst h
      simp [GoMap.set, GoMap.get, Ne.symm hj]
    · by_cases h2 : k1 = j
      · subst h2
        simp [GoMap.set, GoMap.get, h]
      · simp [GoMap.set, GoMap.get, h, h2, ih]

/-- On a line that starts with `msgstr`, whose key is not `msgstr` itself and whose
brackets hold the integer `K`, `parseString` sets variant `K` to the string that
`readString` returns for the value, and no other variant changes. -/
theorem parseString_msgstr_index (d : Domain) (ptr : Nat) (tr : Translation)
    (lines : List GoString) (n : Nat) (l msg : GoString) (K : Int) (err : Option GoError)
    (r2 : lineReader)
    (h : lines[n]? = some l) (hsp : 0 ≤ stringsIndex l 0x20) (hkey : keyOf l ∉ knownKeys)
    (hp : HasPrefix l (bytes "msgstr") = true)
    (hs : 0 ≤ stringsIndex l 0x5B) (hlt : stringsIndex l 0x5B < stringsIndex l 0x5D)
    (hK : Atoi ((l.take (stringsIndex l 0x5D).toNat).drop ((stringsIndex l 0x5B).toNat + 1))
      = (K, none))
    (hr : lineReader.readString ⟨lines, (n : Int) + 1⟩
      (TrimSpace (l.drop ((stringsIndex l 0x20).toNat + 1))) [] = .ok (msg, err, r2)) :
    parseString d ptr tr ⟨lines, n⟩ = .ok (d, { tr with Trs := tr.Trs.set K msg }, r2) ∧
    (tr.Trs.set K msg).get K = some msg ∧
    ∀ j, j ≠ K → (tr.Trs.set K msg).get j = tr.Trs.get j := by
  refine ⟨?_, GoMap_get_set_self _ _ _, fun j hj => GoMap_get_set_other _ _ _ _ hj⟩
  have hdrop : lines.drop n = l :: lines.drop (n + 1) := by
    have hn : n < lines.length := by
      by_contra hc
      rw [List.getElem?_eq_none (by omega)] at h
      cases h
    rw [List.getElem?_eq_getElem hn] at h
    cases h
    exact List.drop_eq_getElem_cons hn
  have hrl := readLine_of_drop lines n l _ hdrop
  simp only [knownKeys, List.mem_cons, List.mem_singleton, List.not_mem_nil, or_false,
    not_or] at hkey
  obtain ⟨k1, k2, k3, k4⟩ := hkey
  have he := stringsIndex_bounds l 0x5D
  have hb : stringsIndex l 0x5B ≠ -1 ∧ stringsIndex l 0x5D ≠ -1 := by
    constructor <;> omega
  have hsl : slice l (stringsIndex l 0x5B + 1) (stringsIndex l 0x5D) =
      some ((l.take (stringsIndex l 0x5D).toNat).drop ((stringsIndex l 0x5B).toNat + 1)) := by
    have hc : 0 ≤ stringsIndex l 0x5B + 1 ∧ stringsIndex l 0x5B + 1 ≤ stringsIndex l 0x5D ∧
        stringsIndex l 0x5D ≤ (l.length : Int) := by omega
    have ht : (stringsIndex l 0x5B + 1).toNat = (stringsIndex l 0x5B).toNat + 1 := by omega
    simp only [slice, hc, and_self, if_true, ht]
  simp only [parseString, hrl, stringsSplitN2_of_space l hsp, k1, k2, k3, k4, if_false, hp,
    if_true, hb, ne_eq, not_false_eq_true, and_self, hsl, hK, hr]

/-- On every line `#| msgid`, a space, a value, `readPrevMsg` leaves `PrevMsgId` empty
and reads no line: the value is handed over with its leading space. -/
theorem readPrevMsg_spaced_msgid (t : Translation) (r : lineReader) (l v : GoString)
    (h2 : l.take 2 = [0x23, 0x7C])
    (hstr : TrimSpace (l.drop 2) = bytes "msgid" ++ 0x20 :: v) :
    t.readPrevMsg r l = .ok ({ t with PrevMsgId := [] }, r) := by
  have hlen : ¬ (l.length < 2) := by
    intro hc
    have := congrArg List.length h2
    simp at this
    omega
  have hpre : HasPrefix (bytes "msgid" ++ 0x20 :: v) (bytes "msgid") = true := by
    simp [HasPrefix, bytes]
  have hcut : CutPrefix (bytes "msgid" ++ 0x20 :: v) (bytes "msgid") = 0x20 :: v := by
    simp only [CutPrefix, hpre, if_true]
    have : (bytes "msgid").length = 5 := by decide
    rw [this]
    have h5 : bytes "msgid" = [0x6D, 0x73, 0x67, 0x69, 0x64] := by decide
    rw [h5]
    rfl
  obtain ⟨err, hrs⟩ := readString_leading_space r v [[0x23, 0x7C]]
  simp only [Translation.readPrevMsg, hlen, h2, ne_eq, not_true_eq_false, or_self, if_false,
    hstr, hpre, if_true, hcut, hrs]

/-! ## Progress of the loop over the lines -/

theorem drop_of_getElem? (lines : List GoString) (n : Nat) (l : GoString)
    (h : lines[n]? = some l) : lines.drop n = l :: lines.drop (n + 1) := by
  have hn : n < lines.length := by
    by_contra hc
    rw [List.getElem?_eq_none (by omega)] at h
    cases h
  rw [List.getElem?_eq_getElem hn] at h
  cases h
  exact List.drop_eq_getElem_cons hn

/-- With the cursor on a line, `parseComment` panics or reads at least that line. -/
theorem parseComment_advances (tr : Translation) (lines : List GoString) (n : Nat) (l : GoString)
    (h : lines[n]? = some l) :
    (∃ m, parseComment tr ⟨lines, n⟩ = .panic m) ∨
    ∃ tr1, ∃ k : Nat, n < k ∧ parseComment tr ⟨lines, n⟩ = .ok (tr1, ⟨lines, k⟩) := by
  by_cases h2 : 2 ≤ l.length
  · exact Or.inr (parseComment_returns tr lines n l h h2)
  · left
    have hrl := readLine_of_drop lines n l _ (drop_of_getElem? lines n l h)
    have hc : l[1]? = none := List.getElem?_eq_none (by omega)
    simp only [parseComment, hrl, hc]
    exact ⟨_, rfl⟩

/-- With the cursor on a line, `parseString` panics or reads at least that line. -/
theorem parseString_advances (d : Domain) (ptr : Nat) (tr : Translation)
    (lines : List GoString) (n : Nat) (l : GoString) (h : lines[n]? = some l) :
    (∃ m, parseString d ptr tr ⟨lines, n⟩ = .panic m) ∨
    ∃ d1 tr1, ∃ k : Nat, n < k ∧ parseString d ptr tr ⟨lines, n⟩ = .ok (d1, tr1, ⟨lines, k⟩) := by
  have hrl := readLine_of_drop lines n l _ (drop_of_getElem? lines n l h)
  have hcast : ((n : Int) + 1) = ((n + 1 : Nat) : Int) := by push_cast; rfl
  by_cases hsp : stringsIndex l 0x20 < 0
  · left
    simp only [parseString, hrl, stringsSplitN2_of_no_space l hsp]
    exact ⟨_, rfl⟩
  · have hsp1 : 0 ≤ stringsIndex l 0x20 := by omega
    obtain ⟨out, err, k, hk, hrun⟩ := readString_returns lines (n + 1)
      (TrimSpace (l.drop ((stringsIndex l 0x20).toNat + 1))) []
    rw [← hcast] at hrun
    simp only [parseString, hrl, stringsSplitN2_of_space l hsp1]
    by_cases c1 : keyOf l = bytes "msgctxt"
    · rw [if_pos c1, hrun]
      exact Or.inr ⟨_, _, k, by omega, rfl⟩
    · rw [if_neg c1]
      by_cases c2 : keyOf l = bytes "msgid"
      · rw [if_pos c2, hrun]
        exact Or.inr ⟨_, _, k, by omega, rfl⟩
      · rw [if_neg c2]
        by_cases c3 : keyOf l = bytes "msgid_plural"
        · rw [if_pos c3, hrun]
          exact Or.inr ⟨_, _, k, by omega, rfl⟩
        · rw [if_neg c3]
          by_cases c4 : keyOf l = bytes "msgstr"
          · rw [if_pos c4, hrun]
            exact Or.inr ⟨_, _, k, by omega, rfl⟩
          · rw [if_neg c4]
            by_cases c5 : HasPrefix l (bytes "msgstr") = true
            · rw [if_pos c5]
              by_cases c6 : stringsIndex l 0x5B ≠ -1 ∧ stringsIndex l 0x5D ≠ -1
              · rw [if_pos c6]
                cases hsl : slice l (stringsIndex l 0x5B + 1) (stringsIndex l 0x5D) with
                | none => exact Or.inl ⟨_, rfl⟩
                | some digits =>
                  cases hA : Atoi digits with
                  | mk i e =>
                    cases e with
                    | none =>
                      simp only [hA, hrun]
                      exact Or.inr ⟨_, _, k, by omega, rfl⟩
                    | some e =>
                      simp only [hA]
                      rw [hcast]
                      exact Or.inr ⟨_, _, n + 1, by omega, rfl⟩
              · rw [if_neg c6, hcast]
                exact Or.inr ⟨_, _, n + 1, by omega, rfl⟩
            · rw [if_neg c5, hcast]
              exact Or.inr ⟨_, _, n + 1, by omega, rfl⟩

/-- When no line of the block is both not blank for `reBlankLine` and empty once
trimmed, the loop over the lines ends within as many rounds as lines are left, plus one:
with that much fuel it does not run out. -/
theorem parseLines_ends (lines : List GoString)
    (hgood : ∀ l ∈ lines, reBlankLine.MatchString l = false → TrimSpace l ≠ []) :
    ∀ (fuel n : Nat) (d : Domain) (ptr : Nat) (tr : Translation),
      1 ≤ fuel → lines.length + 1 ≤ fuel + n →
      parseLines fuel d ptr tr ⟨lines, n⟩ ≠ .timeout := by
  intro fuel
  induction fuel with
  | zero => intro n d ptr tr h; omega
  | succ f ih =>
    intro n d ptr tr _ hfuel
    by_cases hn : n < lines.length
    · have hl : lines[n]? = some lines[n] := List.getElem?_eq_getElem hn
      have hcur : lineReader.currentLine ⟨lines, n⟩ = .ok (lines[n], n, none) := by
        have h1 : ¬ ((n : Int) ≥ (lines.length : Int)) := by omega
        simp [lineReader.currentLine, lineReader.lineAt, h1, hl]
      simp only [parseLines, hcur]
      by_cases hb : reBlankLine.MatchString lines[n] = true
      · simp [hb]
      · have hb1 : reBlankLine.MatchString lines[n] = false := by simpa using hb
        have hne := hgood lines[n] (List.getElem_mem _) hb1
        simp only [hb1, Bool.false_eq_true, if_false]
        cases htrim : TrimSpace lines[n] with
        | nil => exact absurd htrim hne
        | cons c rest =>
          simp only
          by_cases hc : c = 0x23
          · simp only [hc, if_true]
            rcases parseComment_advances tr lines n _ hl with ⟨m, hm⟩ | ⟨tr1, k, hk, hrun⟩
            · simp [hm]
            · simp only [hrun]
              exact ih k d ptr tr1 (by omega) (by omega)
          · simp only [hc, if_false]
            rcases parseString_advances d ptr tr lines n _ hl with ⟨m, hm⟩ | ⟨d1, tr1, k, hk, hrun⟩
            · simp [hm]
            · simp only [hrun]
              exact ih k d1 ptr tr1 (by omega) (by omega)
    · have hcur : lineReader.currentLine ⟨lines, n⟩ = .ok ([], 0, some .EOF) := by
        have h1 : (n : Int) ≥ (lines.length : Int) := by omega
        simp [lineReader.currentLine, h1]
      simp [parseLines, hcur]

/-! ## References without duplicates -/

/-- Against C16 as stated: `SetRefs` with a list that names `a.go:1` twice, and
`readReferenceComment` on a line that names it twice, both leave it twice in `Refs`. -/
theorem Refs_duplicates_counterexample :
    (NewTranslation.SetRefs [bytes "a.go:1", bytes "a.go:1"]).Refs =
      [bytes "a.go:1", bytes "a.go:1"] ∧
    ¬ (NewTranslation.SetRefs [bytes "a.go:1", bytes "a.go:1"]).Refs.Nodup ∧
    (NewTranslation.readReferenceComment (bytes "#: a.go:1 a.go:1")).Refs =
      [bytes "a.go:1", bytes "a.go:1"] ∧
    ¬ (NewTranslation.readReferenceComment (bytes "#: a.go:1 a.go:1")).Refs.Nodup := by
  decide

/-- The references after `AddRefs`, `ClearRefs` or `SetRefs` with a list without
duplicates hold no duplicates when they held none before. -/
theorem RefOp_apply_nodup (t : Translation) (op : RefOp) (h : t.Refs.Nodup) (hc : op.clean) :
    (op.apply t).Refs.Nodup := by
  cases op with
  | setRefs refs => exact hc
  | addRefs refs => exact AddRefs_Refs_nodup t refs h
  | clearRefs => simp [RefOp.apply, Translation.ClearRefs]

/-- The references after a `#:` line: the tokens of the line are appended. -/
theorem readReferenceComment_Refs (t : Translation) (s : GoString)
    (h : s.take 2 = [0x23, 0x3A]) :
    (t.readReferenceComment s).Refs = t.Refs ++ refTokens s := by
  have hlen : ¬ (s.length < 2) := by
    intro hc
    have := congrArg List.length h
    simp at this
    omega
  have hfold : ∀ (toks : List GoString) (t : Translation),
      (toks.foldl (fun (t : Translation) (x : GoString) =>
        if x.length > 0 then { t with Refs := t.Refs ++ [x] } else t) t).Refs =
        t.Refs ++ toks.filter (fun x => x ≠ []) := by
    intro toks
    induction toks with
    | nil => intro t; simp
    | cons x rest ih =>
      intro t
      simp only [List.foldl_cons]
      rw [ih]
      cases x with
      | nil => simp
      | cons c cs => simp
  simp only [Translation.readReferenceComment, hlen, h, ne_eq, not_true_eq_false, or_self,
    if_false, refTokens]
  exact hfold _ t

/-- C16, amended: starting from a new entry, after every sequence of `AddRefs`,
`ClearRefs` and `SetRefs` with a list without duplicates, `Refs` holds no string twice;
`SetRefs` stores the list it is given as it is, and `readReferenceComment` appends every
token of a `#:` line that is not empty, whether `Refs` holds it or not. -/
theorem Refs_nodup_of_ops (ops : List RefOp) (h : ∀ op ∈ ops, op.clean) :
    (ops.foldl RefOp.apply NewTranslation).Refs.Nodup ∧
    (∀ (t : Translation) (refs : List GoString), (t.SetRefs refs).Refs = refs) ∧
    (∀ (t : Translation) (s : GoString), s.take 2 = [0x23, 0x3A] →
      (t.readReferenceComment s).Refs = t.Refs ++ refTokens s) := by
  refine ⟨?_, fun _ _ => rfl, readReferenceComment_Refs⟩
  have gen : ∀ (ops : List RefOp) (t : Translation), t.Refs.Nodup → (∀ op ∈ ops, op.clean) →
      (ops.foldl RefOp.apply t).Refs.Nodup := by
    intro ops
    induction ops with
    | nil => intro t ht _; exact ht
    | cons op rest ih =>
      intro t ht hc
      simp only [List.foldl_cons]
      exact ih _ (RefOp_apply_nodup t op ht (hc op (List.mem_cons_self _ _)))
        (fun o ho => hc o (List.mem_cons_of_mem _ ho))
  exact gen ops NewTranslation (by simp [NewTranslation]) h

/-- The amended C16 on the sequence `SetRefs [a.go:1]`, `AddRefs [a.go:1, b.go:2]`,
`ClearRefs`, `AddRefs [b.go:2, b.go:2]`. -/
theorem Refs_nodup_of_ops_witness :
    ([RefOp.setRefs [bytes "a.go:1"], RefOp.addRefs [bytes "a.go:1", bytes "b.go:2"],
      RefOp.clearRefs, RefOp.addRefs [bytes "b.go:2", bytes "b.go:2"]].foldl
        RefOp.apply NewTranslation).Refs.Nodup :=
  (Refs_nodup_of_ops
    [RefOp.setRefs [bytes "a.go:1"], RefOp.addRefs [bytes "a.go:1", bytes "b.go:2"],
      RefOp.clearRefs, RefOp.addRefs [bytes "b.go:2", bytes "b.go:2"]]
    (by
      intro op hop
      simp only [List.mem_cons, List.mem_singleton, List.not_mem_nil, or_false] at hop
      rcases hop with rfl | rfl | rfl | rfl <;> simp [RefOp.clean])).1

/-! ## The dirty flag -/

theorem readReferenceComment_dirty (t : Translation) (s : GoString) :
    (t.readReferenceComment s).dirty = t.dirty := by
  have hfold : ∀ (toks : List GoString) (t : Translation),
      (toks.foldl (fun (t : Translation) (x : GoString) =>
        if x.length > 0 then { t with Refs := t.Refs ++ [x] } else t) t).dirty = t.dirty := by
    intro toks
    induction toks with
    | nil => intro t; rfl
    | cons x rest ih =>
      intro t
      simp only [List.foldl_cons]
      rw [ih]
      split <;> rfl
  unfold Translation.readReferenceComment
  split
  · rfl
  · exact hfold _ t

theorem readFlagsComment_dirty (t : Translation) (s : GoString) :
    (t.readFlagsComment s).dirty = t.dirty := by
  have hfold : ∀ (toks : List GoString) (t : Translation),
      (toks.foldl (fun (t : Translation) (x : GoString) =>
        { t with Flags := t.Flags ++ [TrimSpace x] }) t).dirty = t.dirty := by
    intro toks
    induction toks with
    | nil => intro t; rfl
    | cons x rest ih =>
      intro t
      simp only [List.foldl_cons]
      rw [ih]
  unfold Translation.readFlagsComment
  split
  · rfl
  · exact hfold _ t

theorem readPrevMsg_dirty (t : Translation) (r : lineReader) (l : GoString) (t1 : Translation)
    (r1 : lineReader) (h : t.readPrevMsg r l = .ok (t1, r1)) : t1.dirty = t.dirty := by
  dsimp only [Translation.readPrevMsg] at h
  generalize lineReader.readString r (CutPrefix (TrimSpace (l.drop 2)) (bytes "msgid"))
    [[0x23, 0x7C]] = rs1 at h
  generalize lineReader.readString r (CutPrefix (TrimSpace (l.drop 2)) (bytes "msgctxt"))
    [[0x23, 0x7C]] = rs2 at h
  split_ifs at h
  · cases h; rfl
  · rcases rs1 with ⟨msg, e, r2⟩ | m | _
    · cases h; rfl
    · cases h
    · cases h
  · rcases rs2 with ⟨msg, e, r2⟩ | m | _
    · cases h; rfl
    · cases h
    · cases h
  · cases h; rfl

/-- A step of `parseComment` leaves the dirty flag as it is. -/
theorem parseComment_dirty (tr : Translation) (r : lineReader) (tr1 : Translation)
    (r1 : lineReader) (h : parseComment tr r = .ok (tr1, r1)) : tr1.dirty = tr.dirty := by
  unfold parseComment at h
  split at h
  · cases h; rfl
  · split at h
    · cases h
    · split at h
      · split at h
        · cases h; rfl
        · cases h
      · split at h
        · split at h
          · cases h; rfl
          · cases h
        · split at h
          · cases h; exact readReferenceComment_dirty _ _
          · split at h
            · cases h; exact readFlagsComment_dirty _ _
            · split at h
              · exact readPrevMsg_dirty _ _ _ _ _ h
              · split at h
                · cases h; rfl
                · cases h
  · cases h
  · cases h

/-- A step of `parseString` leaves the dirty flag as it is. -/
theorem parseString_dirty (d : Domain) (ptr : Nat) (tr : Translation) (r : lineReader)
    (d1 : Domain) (tr1 : Translation) (r1 : lineReader)
    (h : parseString d ptr tr r = .ok (d1, tr1, r1)) : tr1.dirty = tr.dirty := by
  unfold parseString at h
  rcases hrl : r.readLine with ⟨l, m, e, r0⟩ | m | _
  · rw [hrl] at h
    cases e with
    | some e => cases h; rfl
    | none =>
      simp only at h
      rcases hsp : stringsSplitN2 l 0x20 with _ | ⟨key, _ | ⟨s1, _ | ⟨x, rest⟩⟩⟩
      · rw [hsp] at h; cases h
      · rw [hsp] at h; cases h
      · rw [hsp] at h
        simp only at h
        generalize lineReader.readString r0 (TrimSpace s1) [] = rs at h
        split_ifs at h
        · rcases rs with ⟨msg, e, r2⟩ | m | _
          · cases h; rfl
          · cases h
          · cases h
        · rcases rs with ⟨msg, e, r2⟩ | m | _
          · cases h; rfl
          · cases h
          · cases h
        · rcases rs with ⟨msg, e, r2⟩ | m | _
          · cases h; rfl
          · cases h
          · cases h
        · rcases rs with ⟨msg, e, r2⟩ | m | _
          · cases h; rfl
          · cases h
          · cases h
        · rcases hsl : slice l (stringsIndex l 0x5B + 1) (stringsIndex l 0x5D) with _ | digits
          · rw [hsl] at h; cases h
          · rw [hsl] at h
            simp only at h
            rcases hA : Atoi digits with ⟨i, _ | e⟩
            · rw [hA] at h
              rcases rs with ⟨msg, e, r2⟩ | m | _
              · cases h; rfl
              · cases h
              · cases h
            · rw [hA] at h
              cases h; rfl
        · cases h; rfl
        · cases h; rfl
      · rw [hsp] at h; cases h
  · rw [hrl] at h; cases h
  · rw [hrl] at h; cases h

/-- C17: an entry that the parser alone has built is not dirty, so `IsStale` holds after
a fresh parse; after `Set`, `SetN`, `SetRefs` or `ClearRefs` the entry is dirty, so
`IsStale` does not hold; and a dirty entry stays dirty under every operation: `Set`,
`SetN`, `SetRefs`, `ClearRefs`, `AddRefs` and the steps of the parser. -/
theorem dirty_tracks_mutation :
    (∀ tr, ParserBuilt tr → tr.dirty = false ∧ tr.IsStale = true) ∧
    (∀ (t : Translation) (s : GoString) (n : Int) (refs : List GoString),
      ((t.Set s).dirty = true ∧ (t.Set s).IsStale = false) ∧
      ((t.SetN n s).dirty = true ∧ (t.SetN n s).IsStale = false) ∧
      ((t.SetRefs refs).dirty = true ∧ (t.SetRefs refs).IsStale = false) ∧
      (t.ClearRefs.dirty = true ∧ t.ClearRefs.IsStale = false)) ∧
    (∀ t : Translation, t.dirty = true →
      (∀ (s : GoString) (n : Int) (refs : List GoString),
        (t.Set s).dirty = true ∧ (t.SetN n s).dirty = true ∧ (t.SetRefs refs).dirty = true ∧
        t.ClearRefs.dirty = true ∧ (t.AddRefs refs).dirty = true) ∧
      (∀ d ptr r d1 t1 r1, parseString d ptr t r = .ok (d1, t1, r1) → t1.dirty = true) ∧
      (∀ r t1 r1, parseComment t r = .ok (t1, r1) → t1.dirty = true)) := by
  refine ⟨?_, ?_, ?_⟩
  · intro tr hb
    have hd : tr.dirty = false := by
      induction hb with
      | new => rfl
      | string d ptr tr r d1 tr1 r1 _ hstep ih =>
        rw [parseString_dirty d ptr tr r d1 tr1 r1 hstep]
        exact ih
      | comment tr r tr1 r1 _ hstep ih =>
        rw [parseComment_dirty tr r tr1 r1 hstep]
        exact ih
    exact ⟨hd, by simp [Translation.IsStale, hd]⟩
  · intro t s n refs
    simp [Translation.Set, Translation.SetN, Translation.SetRefs, Translation.ClearRefs,
      Translation.IsStale]
  · intro t ht
    refine ⟨?_, ?_, ?_⟩
    · intro s n refs
      refine ⟨rfl, rfl, rfl, rfl, ?_⟩
      exact AddRefs_keeps_dirty t refs ht
    · intro d ptr r d1 t1 r1 h
      rw [parseString_dirty d ptr t r d1 t1 r1 h]
      exact ht
    · intro r t1 r1 h
      rw [parseComment_dirty t r t1 r1 h]
      exact ht

/-- C17 on the entry that the parser builds from the lines `#: a.go:1 b.go:2` and
`msgid "apple"`: it is stale; once dirty through `Set`, it stays dirty under `AddRefs`. -/
theorem dirty_tracks_mutation_witness :
    ({ NewTranslation with ID := bytes "apple", Refs := [bytes "a.go:1", bytes "b.go:2"] } :
      Translation).IsStale = true ∧
    ((appleEntry.Set (bytes "manzana")).AddRefs [bytes "a.go:1"]).dirty = true :=
  ⟨(dirty_tracks_mutation.1 _
      (ParserBuilt.string NewDomain 0
        { NewTranslation with Refs := [bytes "a.go:1", bytes "b.go:2"] } ⟨appleLines, 1⟩
        NewDomain
        { NewTranslation with ID := bytes "apple", Refs := [bytes "a.go:1", bytes "b.go:2"] }
        ⟨appleLines, 2⟩
        (ParserBuilt.comment NewTranslation ⟨appleLines, 0⟩
          { NewTranslation with Refs := [bytes "a.go:1", bytes "b.go:2"] } ⟨appleLines, 1⟩
          ParserBuilt.new (by decide))
        (by decide))).2,
   ((dirty_tracks_mutation.2.2 (appleEntry.Set (bytes "manzana")) (by decide)).1 []
      0 [bytes "a.go:1"]).2.2.2.2⟩

/-! ## The quoting rule -/

theorem manyGreedy_isSome (p : UInt8 → Bool) (k : GoString → Nat → Option Nat) :
    ∀ (s : GoString) (pos : Nat),
      (manyGreedy p k s pos).isSome = true ↔
        ∃ j, j ≤ s.length ∧ (∀ x ∈ s.take j, p x = true) ∧ (k (s.drop j) (pos + j)).isSome = true := by
  intro s
  induction s with
  | nil =>
    intro pos
    simp [manyGreedy]
  | cons c s ih =>
    intro pos
    by_cases hp : p c = true
    · have hstep : (manyGreedy p k (c :: s) pos).isSome = true ↔
          (manyGreedy p k s (pos + 1)).isSome = true ∨ (k (c :: s) pos).isSome = true := by
        simp only [manyGreedy, hp, if_true]
        cases hm : manyGreedy p k s (pos + 1) with
        | none => simp
        | some e => simp
      rw [hstep, ih]
      constructor
      · rintro (⟨j, hj, hall, hk⟩ | hk)
        · refine ⟨j + 1, by simp; omega, ?_, ?_⟩
          · intro x hx
            simp only [List.take_succ_cons, List.mem_cons] at hx
            rcases hx with rfl | hx
            · exact hp
            · exact hall x hx
          · simpa [Nat.add_assoc, Nat.add_comm 1 j] using hk
        · exact ⟨0, by simp, by simp, by simpa using hk⟩
      · rintro ⟨j, hj, hall, hk⟩
        cases j with
        | zero => exact Or.inr (by simpa using hk)
        | succ j =>
          left
          refine ⟨j, by simp at hj; omega, ?_, ?_⟩
          · intro x hx
            exact hall x (by simp [List.take_succ_cons, hx])
          · simpa [Nat.add_assoc, Nat.add_comm 1 j] using hk
    · have hstep : manyGreedy p k (c :: s) pos = k (c :: s) pos := by
        simp [manyGreedy, hp]
      rw [hstep]
      constructor
      · intro hk
        exact ⟨0, by simp, by simp, by simpa using hk⟩
      · rintro ⟨j, hj, hall, hk⟩
        cases j with
        | zero => simpa using hk
        | succ j =>
          exact absurd (hall c (by simp [List.take_succ_cons])) hp

/-- The search of `matchAt` finds a match exactly when there is one. -/
theorem matchAt_isSome : ∀ (re : Regexp) (s : GoString) (pos : Nat),
    (matchAt re s pos).isSome = true ↔ Accepts re s pos := by
  intro re
  induction re with
  | nil => intro s pos; simp [matchAt, Accepts]
  | cons item re ih =>
    intro s pos
    cases item with
    | one p =>
      cases s with
      | nil => simp [matchAt, Accepts]
      | cons c t =>
        by_cases hp : p c = true
        · simp only [matchAt, Accepts, hp, if_true, ih]
          constructor
          · intro h
            exact ⟨c, t, rfl, hp, h⟩
          · rintro ⟨c1, t1, heq, -, h⟩
            cases heq
            exact h
        · simp only [matchAt, Accepts, hp]
          constructor
          · intro h
            simp at h
          · rintro ⟨c1, t1, heq, hp1, -⟩
            cases heq
            exact absurd hp1 hp
    | many p =>
      simp only [matchAt, Accepts]
      rw [manyGreedy_isSome]
      constructor
      · rintro ⟨j, hj, hall, hk⟩
        exact ⟨j, hj, hall, (ih _ _).1 hk⟩
      · rintro ⟨j, hj, hall, hk⟩
        exact ⟨j, hj, hall, (ih _ _).2 hk⟩
    | beginText =>
      by_cases h0 : pos = 0
      · simp [matchAt, Accepts, h0, ih]
      · simp [matchAt, Accepts, h0]
    | endText =>
      cases s with
      | nil => simp [matchAt, Accepts, ih]
      | cons c t => simp [matchAt, Accepts]

/-- An expression that starts with `^` matches at the offset 0 only. -/
theorem findAt_beginText (re : Regexp) : ∀ (s : GoString) (pos : Nat), 0 < pos →
    findAt (.beginText :: re) s pos = none := by
  intro s
  induction s with
  | nil =>
    intro pos hpos
    have : pos ≠ 0 := by omega
    simp [findAt, matchAt, this]
  | cons c s ih =>
    intro pos hpos
    have : pos ≠ 0 := by omega
    simp [findAt, matchAt, this, ih (pos + 1) (by omega)]

theorem MatchString_beginText (re : Regexp) (s : GoString) :
    Regexp.MatchString (.beginText :: re) s = true ↔ Accepts re s 0 := by
  rw [← matchAt_isSome]
  unfold Regexp.MatchString
  cases s with
  | nil =>
    simp only [findAt, matchAt, if_true]
    cases matchAt re [] 0 <;> simp
  | cons c t =>
    simp only [findAt, matchAt, if_true]
    cases hm : matchAt re (c :: t) 0 with
    | none => simp [findAt_beginText re t 1 (by omega)]
    | some e => simp

theorem dropWhile_append_cons (p : UInt8 → Bool) (w : GoString) (a : UInt8) (r : GoString)
    (hw : ∀ x ∈ w, p x = true) (ha : p a = false) : (w ++ a :: r).dropWhile p = a :: r := by
  induction w with
  | nil => simp [List.dropWhile, ha]
  | cons x w ih =>
    have hx : p x = true := hw x (List.mem_cons_self _ _)
    simp only [List.cons_append, List.dropWhile_cons, hx, if_true]
    exact ih (fun y hy => hw y (List.mem_cons_of_mem _ hy))

/-- A line is its leading white space, its trimmed text and its trailing white space. -/
theorem trimRe_split (s : GoString) :
    ∃ w1 w2 : GoString, s = w1 ++ trimRe s ++ w2 ∧
      (∀ x ∈ w1, reSpace x = true) ∧ (∀ x ∈ w2, reSpace x = true) := by
  refine ⟨s.takeWhile reSpace, ((s.dropWhile reSpace).reverse.takeWhile reSpace).reverse, ?_,
    ?_, ?_⟩
  · have h1 : s = s.takeWhile reSpace ++ s.dropWhile reSpace :=
      (List.takeWhile_append_dropWhile reSpace s).symm
    have h2 : (s.dropWhile reSpace).reverse =
        (s.dropWhile reSpace).reverse.takeWhile reSpace ++
          (s.dropWhile reSpace).reverse.dropWhile reSpace :=
      (List.takeWhile_append_dropWhile reSpace _).symm
    have h3 : s.dropWhile reSpace =
        ((s.dropWhile reSpace).reverse.dropWhile reSpace).reverse ++
          ((s.dropWhile reSpace).reverse.takeWhile reSpace).reverse := by
      have := congrArg List.reverse h2
      rw [List.reverse_reverse, List.reverse_append] at this
      exact this
    unfold trimRe
    rw [List.append_assoc, ← h3]
    exact h1
  · intro x hx
    exact List.mem_takeWhile_imp hx
  · intro x hx
    exact List.mem_takeWhile_imp (List.mem_reverse.1 hx)

/-- The trimmed text of white space, a quote, a middle, a quote, white space. -/
theorem trimRe_of_quoted (w1 mid w2 : GoString)
    (h1 : ∀ x ∈ w1, reSpace x = true) (h2 : ∀ x ∈ w2, reSpace x = true) :
    trimRe (w1 ++ 0x22 :: (mid ++ 0x22 :: w2)) = 0x22 :: (mid ++ [0x22]) := by
  have hq : reSpace 0x22 = false := by decide
  unfold trimRe
  rw [dropWhile_append_cons reSpace w1 0x22 _ h1 hq]
  have hrev : (0x22 :: (mid ++ 0x22 :: w2)).reverse =
      w2.reverse ++ 0x22 :: (mid.reverse ++ [0x22]) := by
    simp
  rw [hrev, dropWhile_append_cons reSpace w2.reverse 0x22 _
    (fun x hx => h2 x (List.mem_reverse.1 hx)) hq]
  simp

/-- The language of `reStringLine` past its `^`: white space, a quote, a middle with
no line feed, a quote, white space. -/
theorem Accepts_reStringLine (s : GoString) :
    Accepts [.many reSpace, .one (reByte 0x22), .many reAny, .one (reByte 0x22),
      .many reSpace, .endText] s 0 ↔
    ∃ w1 mid w2 : GoString, s = w1 ++ 0x22 :: (mid ++ 0x22 :: w2) ∧
      (∀ x ∈ w1, reSpace x = true) ∧ (∀ x ∈ mid, reAny x = true) ∧
      (∀ x ∈ w2, reSpace x = true) := by
  simp only [Accepts]
  constructor
  · rintro ⟨j1, -, hw1, c1, t1, hd1, hc1, j2, -, hmid, c2, t2, hd2, hc2, j3, -, hw2, hd3, -⟩
    have e1 : c1 = 0x22 := by simpa [reByte] using hc1
    have e2 : c2 = 0x22 := by simpa [reByte] using hc2
    subst e1 e2
    have hs : s = s.take j1 ++ s.drop j1 := (List.take_append_drop j1 s).symm
    have ht1 : t1 = t1.take j2 ++ t1.drop j2 := (List.take_append_drop j2 t1).symm
    have ht2 : t2 = t2.take j3 := by
      have := List.take_append_drop j3 t2
      rw [hd3, List.append_nil] at this
      exact this.symm
    refine ⟨s.take j1, t1.take j2, t2, ?_, hw1, hmid, ?_⟩
    · rw [← hd2, ← ht1, ← hd1]
      exact hs
    · rw [ht2]
      exact hw2
  · rintro ⟨w1, mid, w2, rfl, hw1, hmid, hw2⟩
    refine ⟨w1.length, by simp, by simpa using hw1, 0x22, mid ++ 0x22 :: w2, by simp, by decide,
      mid.length, by simp, by simpa using hmid, 0x22, w2, by simp, by decide,
      w2.length, by simp, by simpa using hw2, by simp, trivial⟩

/-- Against C13 as stated: the line made of one double quote begins and ends with a
double quote, and `reStringLine` does not hold for it; and the line of a vertical tab
followed by `"a"` begins and ends with a double quote once `TrimSpace` has trimmed it,
and `reStringLine` does not hold for it either. -/
theorem reStringLine_counterexample :
    (0x0A : UInt8) ∉ bytes "\"" ∧
    (TrimSpace (bytes "\"")).head? = some 0x22 ∧
    (TrimSpace (bytes "\"")).getLast? = some 0x22 ∧
    reStringLine.MatchString (bytes "\"") = false ∧
    (0x0A : UInt8) ∉ bytes "\x0b\"a\"" ∧
    TrimSpace (bytes "\x0b\"a\"") = bytes "\"a\"" ∧
    reStringLine.MatchString (bytes "\x0b\"a\"") = false := by
  decide

/-- C13, amended: for every line with no line feed, `reStringLine` holds if and only if
the line, once the white space of the class `\s` (tab, line feed, form feed, carriage
return, space) is trimmed at both ends, is at least two bytes long, begins with a
double quote and ends with a double quote. -/
theorem reStringLine_iff (s : GoString) (h : (0x0A : UInt8) ∉ s) :
    reStringLine.MatchString s = true ↔
      (2 ≤ (trimRe s).length ∧ (trimRe s).head? = some 0x22 ∧
        (trimRe s).getLast? = some 0x22) := by
  unfold reStringLine
  rw [MatchString_beginText, Accepts_reStringLine]
  constructor
  · rintro ⟨w1, mid, w2, rfl, hw1, -, hw2⟩
    rw [trimRe_of_quoted w1 mid w2 hw1 hw2]
    refine ⟨by simp, by simp, ?_⟩
    rw [← List.cons_append, List.getLast?_append]
    simp
  · rintro ⟨hlen, hhead, hlast⟩
    obtain ⟨w1, w2, hs, hw1, hw2⟩ := trimRe_split s
    cases ht : trimRe s with
    | nil => rw [ht] at hlen; simp at hlen
    | cons a t1 =>
      rw [ht] at hlen hhead hlast hs
      have ha : a = 0x22 := by simpa using hhead
      subst ha
      cases t1 with
      | nil => simp at hlen
      | cons b t2 =>
        rw [List.getLast?_cons_cons, List.getLast?_eq_some_iff] at hlast
        obtain ⟨mid, hmid⟩ := hlast
        rw [hmid] at hs
        refine ⟨w1, mid, w2, ?_, hw1, ?_, hw2⟩
        · rw [hs]
          simp
        · intro x hx
          have hxs : x ∈ s := by
            rw [hs]
            simp [hx]
          have hne : x ≠ 0x0A := fun hc => h (hc ▸ hxs)
          simpa [reAny] using hne

/-- The amended C13 on the line `"a b"` with two spaces before it and one after it. -/
theorem reStringLine_iff_witness :
    reStringLine.MatchString (bytes "  \"a b\" ") = true :=
  (reStringLine_iff (bytes "  \"a b\" ") (by decide)).2 ⟨by decide, by decide, by decide⟩

/-! ## After a fresh parse -/

/-- A step of `parseString` leaves the entries of the store as they are. -/
theorem parseString_heap (d : Domain) (ptr : Nat) (tr : Translation) (r : lineReader)
    (d1 : Domain) (tr1 : Translation) (r1 : lineReader)
    (h : parseString d ptr tr r = .ok (d1, tr1, r1)) : d1.heap = d.heap := by
  unfold parseString at h
  rcases hrl : r.readLine with ⟨l, m, e, r0⟩ | m | _
  · rw [hrl] at h
    cases e with
    | some e => cases h; rfl
    | none =>
      simp only at h
      rcases hsp : stringsSplitN2 l 0x20 with _ | ⟨key, _ | ⟨s1, _ | ⟨x, rest⟩⟩⟩
      · rw [hsp] at h; cases h
      · rw [hsp] at h; cases h
      · rw [hsp] at h
        simp only at h
        generalize lineReader.readString r0 (TrimSpace s1) [] = rs at h
        split_ifs at h
        · rcases rs with ⟨msg, e, r2⟩ | m | _
          · cases h; rfl
          · cases h
          · cases h
        · rcases rs with ⟨msg, e, r2⟩ | m | _
          · cases h; rfl
          · cases h
          · cases h
        · rcases rs with ⟨msg, e, r2⟩ | m | _
          · cases h; rfl
          · cases h
          · cases h
        · rcases rs with ⟨msg, e, r2⟩ | m | _
          · cases h; rfl
          · cases h
          · cases h
        · rcases hsl : slice l (stringsIndex l 0x5B + 1) (stringsIndex l 0x5D) with _ | digits
          · rw [hsl] at h; cases h
          · rw [hsl] at h
            simp only at h
            rcases hA : Atoi digits with ⟨i, _ | e⟩
            · rw [hA] at h
              rcases rs with ⟨msg, e, r2⟩ | m | _
              · cases h; rfl
              · cases h
              · cases h
            · rw [hA] at h
              cases h; rfl
        · cases h; rfl
        · cases h; rfl
      · rw [hsp] at h; cases h
  · rw [hrl] at h; cases h
  · rw [hrl] at h; cases h

/-- The loop over the lines of a block leaves the dirty flag of the entry and the
entries of the store as they are. -/
theorem parseLines_clean : ∀ (fuel : Nat) (d : Domain) (ptr : Nat) (tr : Translation)
    (r : lineReader) (d1 : Domain) (tr1 : Translation) (r1 : lineReader),
    parseLines fuel d ptr tr r = .ok (d1, tr1, r1) → tr1.dirty = tr.dirty ∧ d1.heap = d.heap := by
  intro fuel
  induction fuel with
  | zero => intro d ptr tr r d1 tr1 r1 h; cases h
  | succ f ih =>
    intro d ptr tr r d1 tr1 r1 h
    unfold parseLines at h
    rcases hcur : r.currentLine with ⟨l, m, e⟩ | m | _
    · rw [hcur] at h
      cases e with
      | some e => cases h; exact ⟨rfl, rfl⟩
      | none =>
        simp only at h
        by_cases hb : reBlankLine.MatchString l = true
        · rw [if_pos hb] at h
          cases h
          exact ⟨rfl, rfl⟩
        · rw [if_neg hb] at h
          rcases htrim : TrimSpace l with _ | ⟨c, rest⟩
          · rw [htrim] at h
            exact ih _ _ _ _ _ _ _ h
          · rw [htrim] at h
            simp only at h
            by_cases hc : c = 0x23
            · rw [if_pos hc] at h
              rcases hpc : parseComment tr r with ⟨t2, r2⟩ | m | _
              · rw [hpc] at h
                obtain ⟨h1, h2⟩ := ih _ _ _ _ _ _ _ h
                exact ⟨h1.trans (parseComment_dirty tr r t2 r2 hpc), h2⟩
              · rw [hpc] at h; cases h
              · rw [hpc] at h; cases h
            · rw [if_neg hc] at h
              rcases hps : parseString d ptr tr r with ⟨d2, t2, r2⟩ | m | _
              · rw [hps] at h
                obtain ⟨h1, h2⟩ := ih _ _ _ _ _ _ _ h
                exact ⟨h1.trans (parseString_dirty d ptr tr r d2 t2 r2 hps),
                  h2.trans (parseString_heap d ptr tr r d2 t2 r2 hps)⟩
              · rw [hps] at h; cases h
              · rw [hps] at h; cases h
    · rw [hcur] at h; cases h
    · rw [hcur] at h; cases h

theorem fileEntry_heap (d : Domain) (ptr : Nat) (tr : Translation) :
    (fileEntry d ptr tr).heap = d.heap.set ptr tr := by
  unfold fileEntry
  split <;> rfl

/-- A block adds entries that are not dirty only. -/
theorem parseBlock_clean (fuel : Nat) (d : Domain) (block : GoString) (d1 : Domain)
    (hd : ∀ t ∈ d.heap, t.dirty = false) (h : parseBlock fuel d block = .ok d1) :
    ∀ t ∈ d1.heap, t.dirty = false := by
  have hset : ∀ (tr : Translation), tr.dirty = false →
      ∀ t ∈ (d.heap ++ [NewTranslation]).set d.heap.length tr, t.dirty = false := by
    intro tr htr t ht
    rcases List.mem_or_eq_of_mem_set ht with hm | rfl
    · rcases List.mem_append.1 hm with hm | hm
      · exact hd t hm
      · simp only [List.mem_singleton] at hm
        rw [hm]
        rfl
    · exact htr
  unfold parseBlock at h
  rcases hsk : (newLineReader block).skipBlankLine with ⟨e, r⟩ | m | _
  · rw [hsk] at h
    cases e with
    | some e =>
      simp only at h
      cases h
      intro t ht
      rw [fileEntry_heap] at ht
      exact hset NewTranslation rfl t ht
    | none =>
      simp only at h
      rcases hpl : parseLines fuel { d with heap := d.heap ++ [NewTranslation] } d.heap.length
        NewTranslation r with ⟨d2, t2, r2⟩ | m | _
      · rw [hpl] at h
        simp only at h
        cases h
        obtain ⟨h1, h2⟩ := parseLines_clean _ _ _ _ _ _ _ _ hpl
        intro t ht
        rw [fileEntry_heap, h2] at ht
        exact hset t2 (h1.trans rfl) t ht
      · rw [hpl] at h; cases h
      · rw [hpl] at h; cases h
  · rw [hsk] at h; cases h
  · rw [hsk] at h; cases h

/-- After a fresh parse every entry of the store is stale: the blocks of a catalog,
parsed into an empty store, leave entries that are not dirty only. -/
theorem fresh_parse_all_stale (fuel : Nat) (blocks : List GoString) (d : Domain)
    (h : parseBlocks fuel NewDomain blocks = .ok d) : ∀ t ∈ d.heap, t.IsStale = true := by
  have gen : ∀ (blocks : List GoString) (d0 d : Domain), (∀ t ∈ d0.heap, t.dirty = false) →
      parseBlocks fuel d0 blocks = .ok d → ∀ t ∈ d.heap, t.dirty = false := by
    intro blocks
    induction blocks with
    | nil =>
      intro d0 d hd0 h
      simp only [parseBlocks, Run.ok.injEq] at h
      rw [← h]
      exact hd0
    | cons b rest ih =>
      intro d0 d hd0 h
      unfold parseBlocks at h
      rcases hb : parseBlock fuel d0 b with d1 | m | _
      · rw [hb] at h
        exact ih d1 d (parseBlock_clean fuel d0 b d1 hd0 hb) h
      · rw [hb] at h; cases h
      · rw [hb] at h; cases h
  intro t ht
  have := gen blocks NewDomain d (by simp [NewDomain]) h t ht
  simp [Translation.IsStale, this]

/-! ## The cursor stays in range -/

/-- A `readLine` that returns a line was at a cursor in range, and moves it on by one. -/
theorem readLine_line (r : lineReader) (l : GoString) (m : Int) (r1 : lineReader)
    (h : r.readLine = .ok (l, m, none, r1)) :
    0 ≤ r.linenum ∧ r.linenum < r.lines.length ∧ r1 = { r with linenum := r.linenum + 1 } := by
  unfold lineReader.readLine at h
  by_cases hge : r.linenum ≥ r.lines.length
  · rw [if_pos hge] at h
    cases h
  · rw [if_neg hge] at h
    rcases hl : r.lineAt with l0 | m0 | _
    · rw [hl] at h
      simp only [Run.ok.injEq, Prod.mk.injEq, true_and] at h
      have hpos : 0 ≤ r.linenum := by
        by_contra hc
        unfold lineReader.lineAt at hl
        rw [if_neg hc] at hl
        cases hl
      exact ⟨hpos, by omega, h.2.2.symm⟩
    · rw [hl] at h; cases h
    · rw [hl] at h; cases h

/-- A `readLine` that reports the end of the lines leaves the reader as it is. -/
theorem readLine_end (r : lineReader) (l : GoString) (m : Int) (e : GoError) (r1 : lineReader)
    (h : r.readLine = .ok (l, m, some e, r1)) : r1 = r := by
  unfold lineReader.readLine at h
  by_cases hge : r.linenum ≥ r.lines.length
  · rw [if_pos hge] at h
    simp only [Run.ok.injEq, Prod.mk.injEq] at h
    exact h.2.2.2.symm
  · rw [if_neg hge] at h
    rcases hl : r.lineAt with l0 | m0 | _
    · rw [hl] at h; cases h
    · rw [hl] at h; cases h
    · rw [hl] at h; cases h

theorem readLine_inRange (r : lineReader) (l : GoString) (m : Int) (e : Option GoError)
    (r1 : lineReader) (h : r.readLine = .ok (l, m, e, r1)) (hr : r.inRange) : r1.inRange := by
  cases e with
  | none =>
    obtain ⟨h0, h1, rfl⟩ := readLine_line r l m r1 h
    exact ⟨by simp only; omega, by simp only; omega⟩
  | some e =>
    rw [readLine_end r l m e r1 h]
    exact hr

/-- After a `readLine` that returned a line the cursor is at least 1, and `unreadLine`
gives the reader back. -/
theorem unreadLine_after_readLine (r : lineReader) (l : GoString) (m : Int) (r1 : lineReader)
    (h : r.readLine = .ok (l, m, none, r1)) : 1 ≤ r1.linenum ∧ r1.unreadLine = r := by
  obtain ⟨h0, h1, rfl⟩ := readLine_line r l m r1 h
  refine ⟨by simp only; omega, ?_⟩
  have hge : r.linenum + 1 ≥ 0 := by omega
  simp [lineReader.unreadLine, hge]

theorem skipBlankLineLoop_inRange : ∀ (fuel : Nat) (r r1 : lineReader),
    skipBlankLineLoop fuel r = .ok r1 → r.inRange → r1.inRange := by
  intro fuel
  induction fuel with
  | zero => intro r r1 h; cases h
  | succ f ih =>
    intro r r1 h hr
    unfold skipBlankLineLoop at h
    by_cases hlt : r.linenum < r.lines.length
    · rw [if_pos hlt] at h
      rcases hl : r.lineAt with l0 | m0 | _
      · rw [hl] at h
        simp only at h
        by_cases ht : TrimSpace l0 ≠ []
        · rw [if_pos ht] at h
          cases h
          exact hr
        · rw [if_neg ht] at h
          exact ih _ _ h ⟨by simp only; have := hr.1; omega, by simp only; omega⟩
      · rw [hl] at h; cases h
      · rw [hl] at h; cases h
    · rw [if_neg hlt] at h
      cases h
      exact hr

theorem skipBlankLine_inRange (r : lineReader) (e : Option GoError) (r1 : lineReader)
    (h : r.skipBlankLine = .ok (e, r1)) (hr : r.inRange) : r1.inRange := by
  unfold lineReader.skipBlankLine at h
  rcases hloop : skipBlankLineLoop (r.lines.length + 1) r with r2 | m0 | _
  · rw [hloop] at h
    have h2 := skipBlankLineLoop_inRange _ _ _ hloop hr
    simp only at h
    split_ifs at h
    · cases h
      exact h2
    · cases h
      exact h2
  · rw [hloop] at h; cases h
  · rw [hloop] at h; cases h

theorem readStringLoop_inRange (pfx : GoString) : ∀ (fuel : Nat) (r : lineReader)
    (msg out : GoString) (err : Option GoError) (r1 : lineReader),
    readStringLoop pfx fuel r msg = .ok (out, err, r1) → r.inRange → r1.inRange := by
  intro fuel
  induction fuel with
  | zero => intro r msg out err r1 h; cases h
  | succ f ih =>
    intro r msg out err r1 h hr
    unfold readStringLoop at h
    rcases hrl : r.readLine with ⟨l, m, e, r0⟩ | m | _
    · rw [hrl] at h
      cases e with
      | some e =>
        simp only [Run.ok.injEq, Prod.mk.injEq] at h
        rw [← h.2.2]
        exact readLine_inRange r l m _ r0 hrl hr
      | none =>
        dsimp only at h
        generalize (if pfx.length > 0 then CutPrefix l pfx else l) = s1 at h
        by_cases hm : ¬ reStringLine.MatchString s1 = true
        · rw [if_pos hm] at h
          simp only [Run.ok.injEq, Prod.mk.injEq] at h
          rw [← h.2.2, (unreadLine_after_readLine r l m r0 hrl).2]
          exact hr
        · rw [if_neg hm] at h
          exact ih _ _ _ _ _ h (readLine_inRange r l m _ r0 hrl hr)
    · rw [hrl] at h; cases h
    · rw [hrl] at h; cases h

theorem readString_inRange (r : lineReader) (head : GoString) (vars : List GoString)
    (msg : GoString) (err : Option GoError) (r1 : lineReader)
    (h : r.readString head vars = .ok (msg, err, r1)) (hr : r.inRange) : r1.inRange := by
  unfold lineReader.readString at h
  simp only at h
  split at h
  · cases h
    exact hr
  · split at h
    · cases h
      exact hr
    · exact readStringLoop_inRange _ _ _ _ _ _ _ h hr

/-- Against C19 as stated: at the cursor 0, `unreadLine` does not leave the cursor at 0:
it moves it to -1. -/
theorem unreadLine_zero_counterexample :
    (⟨[bytes "msgid \"a\""], 0⟩ : lineReader).linenum = 0 ∧
    (lineReader.unreadLine ⟨[bytes "msgid \"a\""], 0⟩).linenum = -1 ∧
    (lineReader.unreadLine ⟨[bytes "msgid \"a\""], 0⟩).linenum ≠ 0 := by
  decide

/-- C19, amended: at a cursor of 1 or more `unreadLine` moves the cursor back by one, so
`readLine` followed by `unreadLine` gives the reader back; `unreadLine` is called right
after a `readLine` that returned a line, where the cursor is at least 1, so in every
run of the cursor operations the cursor is not negative and not past the number of
lines; there is no stop at zero: the test is `linenum >= 0`, and at the cursor 0
`unreadLine` moves the cursor to -1. -/
theorem unreadLine_rewinds :
    (∀ (lines : List GoString) (c : Int), 1 ≤ c →
      lineReader.unreadLine ⟨lines, c⟩ = ⟨lines, c - 1⟩) ∧
    (∀ (r : lineReader) (l : GoString) (m : Int) (r1 : lineReader),
      r.readLine = .ok (l, m, none, r1) → 1 ≤ r1.linenum ∧ r1.unreadLine = r) ∧
    (∀ r : lineReader, CursorRun r → 0 ≤ r.linenum ∧ r.linenum ≤ r.lines.length) ∧
    (∀ lines : List GoString, lineReader.unreadLine ⟨lines, 0⟩ = ⟨lines, -1⟩) := by
  refine ⟨unreadLine_pos, unreadLine_after_readLine, ?_, ?_⟩
  · intro r hrun
    induction hrun with
    | new data => exact ⟨le_refl _, by simp [newLineReader]⟩
    | skip r e r1 _ hstep ih => exact skipBlankLine_inRange r e r1 hstep ih
    | read r l m e r1 _ hstep ih => exact readLine_inRange r l m e r1 hstep ih
    | unread r l m r1 _ hstep ih =>
      rw [(unreadLine_after_readLine r l m r1 hstep).2]
      exact ih
    | readString r head vars msg err r1 _ hstep ih =>
      exact readString_inRange r head vars msg err r1 hstep ih
  · intro lines
    simp [lineReader.unreadLine]

/-- The amended C19 on the reader of the text `msgid "a"`: after `readLine` the cursor is
1 and `unreadLine` gives the reader back, and the reader that `readLine` and then
`unreadLine` reach has its cursor in range. -/
theorem unreadLine_rewinds_witness :
    lineReader.unreadLine ⟨[bytes "msgid \"a\""], 1⟩ = ⟨[bytes "msgid \"a\""], 1 - 1⟩ ∧
    (0 ≤ (lineReader.unreadLine ⟨[bytes "msgid \"a\""], 1⟩).linenum ∧
      (lineReader.unreadLine ⟨[bytes "msgid \"a\""], 1⟩).linenum ≤
        (lineReader.unreadLine ⟨[bytes "msgid \"a\""], 1⟩).lines.length) :=
  ⟨unreadLine_rewinds.1 [bytes "msgid \"a\""] 1 (by decide),
   unreadLine_rewinds.2.2.1 _
     (CursorRun.unread (newLineReader (bytes "msgid \"a\"")) (bytes "msgid \"a\"") 0
       ⟨[bytes "msgid \"a\""], 1⟩ (CursorRun.new (bytes "msgid \"a\"")) (by decide))⟩

end Gotext
